import Mathlib

set_option linter.unusedSectionVars false

/-!
Shallow embedding of the reachability search engine (`reachability.hpp`) and
of the leaping-frogs client model (`frogs.cpp`), together with proofs of the
specification's claims about them.

The C++ `check` loop is embedded as a fuel-indexed recursion `checkLoop`
whose body `stepLoop` performs exactly one iteration of the C++ `while`
loop: pop a state from `waiting` according to the search order, test the
goal, otherwise push it to `passed` and admit the filtered successors.
The member variable `previous_cost`, which the C++ class mutates inside
`popstate` and never resets, is threaded explicitly and returned.
-/

namespace Reachability

variable {S C : Type}

/-- The `search_order_t` enumeration of `reachability.hpp`. -/
inductive search_order_t where
  | depth_first
  | breadth_first
  | cost_guided
  deriving DecidableEq, Repr

/-- Result of a search run: the C++ `check` either returns a solution list or
throws "No solution could be found"; `outOfFuel` marks exhaustion of the fuel
that makes the embedded loop total (the C++ loop would still be running). -/
inductive SearchResult (S : Type) where
  | found : List S → SearchResult S
  | noSolution : SearchResult S
  | outOfFuel : SearchResult S
  deriving DecidableEq, Repr

/-- Index returned by `std::min_element`: the first index of the list holding
the minimum value (0 on the empty list, where the C++ result would be `end`). -/
def minIdx [LinearOrder C] : List C → Nat
  | [] => 0
  | [_] => 0
  | x :: y :: rest =>
    let j := minIdx (y :: rest)
    if (y :: rest).getD j y < x then j + 1 else 0

/-- `state_space_t::popstate` on a nonempty `waiting` deque `x :: xs`.
Returns the selected state, the remaining deque, and the (possibly updated)
`previous_cost` member. -/
def popstate [LinearOrder C] (search_order : search_order_t)
    (cost_function : S → C → C) (previous_cost : C) (x : S) (xs : List S) :
    S × List S × C :=
  match search_order with
  | .depth_first =>
    ((x :: xs).getLast (List.cons_ne_nil x xs), (x :: xs).dropLast, previous_cost)
  | .breadth_first => (x, xs, previous_cost)
  | .cost_guided =>
    let waiting := x :: xs
    let costs := waiting.map (fun s => cost_function s previous_cost)
    let index := minIdx costs
    (waiting.getD index x, waiting.eraseIdx index,
      costs.getD index (cost_function x previous_cost))

/-- Lookup in the trace map (`std::map<State_t, State_t>`), first match wins. -/
def lookupTrace [DecidableEq S] : List (S × S) → S → Option S
  | [], _ => none
  | (k, v) :: rest, s => if s = k then some v else lookupTrace rest s

/-- `state_space_t::get_solution_from_trace`: walk the trace map backwards
from the goal state to the initial state, prepending each state.  A missing
key behaves as `std::map::operator[]`, producing a default-constructed state;
the fuel makes the C++ `while` loop total (`none` = the loop is still
running after `fuel` iterations). -/
def get_solution_from_trace [DecidableEq S] [Inhabited S]
    (trace : List (S × S)) (initial_state : S) :
    Nat → S → List S → Option (List S)
  | 0, _, _ => none
  | fuel + 1, state, solution =>
    if state = initial_state then some (state :: solution)
    else get_solution_from_trace trace initial_state fuel
      ((lookupTrace trace state).getD default) (state :: solution)

/-- The successor loop in `state_space_t::check`: for each successor, if it
satisfies the invariant and is in neither `waiting` nor `passed`, record
`trace[succ] = curr_state` and append it to `waiting`. -/
def pushSuccessors [DecidableEq S] (invariant : S → Bool) (passed : List S)
    (curr_state : S) :
    List S → List (S × S) → List S → List S × List (S × S)
  | waiting, trace, [] => (waiting, trace)
  | waiting, trace, succ :: rest =>
    if invariant succ = true ∧ succ ∉ waiting ∧ succ ∉ passed then
      pushSuccessors invariant passed curr_state (waiting ++ [succ])
        ((succ, curr_state) :: trace) rest
    else
      pushSuccessors invariant passed curr_state waiting trace rest

/-- Outcome of one iteration of the `while` loop in `check`. -/
inductive StepOut (S C : Type) where
  | done : SearchResult S → C → StepOut S C
  | next : List S → List S → List (S × S) → C → StepOut S C
  deriving DecidableEq

/-- One iteration of the `while (!waiting.empty())` loop of
`state_space_t::check`. -/
def stepLoop [DecidableEq S] [Inhabited S] [LinearOrder C]
    (successors_function : S → List S) (invariant : S → Bool)
    (cost_function : S → C → C) (initial_state : S) (goal_pred : S → Bool)
    (search_order : search_order_t) :
    List S → List S → List (S × S) → C → StepOut S C
  | [], _, _, previous_cost => .done .noSolution previous_cost
  | x :: xs, passed, trace, previous_cost =>
    let p := popstate search_order cost_function previous_cost x xs
    if goal_pred p.1 then
      match get_solution_from_trace trace initial_state (trace.length + 1) p.1 [] with
      | some solution => .done (.found solution) p.2.2
      | none => .done .outOfFuel p.2.2
    else
      let passed2 := passed ++ [p.1]
      let wt := pushSuccessors invariant passed2 p.1 p.2.1 trace
        (successors_function p.1)
      .next wt.1 passed2 wt.2 p.2.2

/-- The `while` loop of `state_space_t::check`, made total by fuel. -/
def checkLoop [DecidableEq S] [Inhabited S] [LinearOrder C]
    (successors_function : S → List S) (invariant : S → Bool)
    (cost_function : S → C → C) (initial_state : S) (goal_pred : S → Bool)
    (search_order : search_order_t) :
    Nat → List S → List S → List (S × S) → C → SearchResult S × C
  | 0, _, _, _, previous_cost => (.outOfFuel, previous_cost)
  | fuel + 1, waiting, passed, trace, previous_cost =>
    match stepLoop successors_function invariant cost_function initial_state
        goal_pred search_order waiting passed trace previous_cost with
    | .done r pc => (r, pc)
    | .next w p t pc =>
      checkLoop successors_function invariant cost_function initial_state
        goal_pred search_order fuel w p t pc

/-- The default invariant of `reachability.hpp`: accept every state. -/
def default_invariant : S → Bool := fun _ => true

/-- The default cost function of `reachability.hpp`: constant `0`. -/
def default_cost_function [Zero C] : S → C → C := fun _ _ => 0

/-- The `state_space_t` class: its constructor arguments and the mutable
member `previous_cost`. -/
structure state_space_t (S C : Type) where
  initial_state : S
  initial_cost : C
  successors_function : S → List S
  invariant : S → Bool
  cost_function : S → C → C
  previous_cost : C

/-- The three-argument constructor of `state_space_t` (initial cost `0`,
default cost function, `previous_cost` initialised to the initial cost). -/
def state_space_t.mk3 [Zero C] (state : S) (succ : S → List S)
    (invariant_fn : S → Bool) : state_space_t S C :=
  { initial_state := state, initial_cost := 0, successors_function := succ,
    invariant := invariant_fn, cost_function := default_cost_function,
    previous_cost := 0 }

/-- The five-argument constructor of `state_space_t`
(`previous_cost` initialised to the initial cost). -/
def state_space_t.mk5 (state : S) (cost : C) (succ : S → List S)
    (invariant_fn : S → Bool) (cost_func : S → C → C) : state_space_t S C :=
  { initial_state := state, initial_cost := cost, successors_function := succ,
    invariant := invariant_fn, cost_function := cost_func,
    previous_cost := cost }

/-- `state_space_t::check`: run the search loop on a fresh `waiting` deque
holding the initial state, fresh `passed` and `trace`, and the instance's
current `previous_cost`; return the result together with the updated
instance (whose `previous_cost` member retains popstate's mutations). -/
def check [DecidableEq S] [Inhabited S] [LinearOrder C]
    (space : state_space_t S C) (goal_pred : S → Bool)
    (search_order : search_order_t) (fuel : Nat) :
    SearchResult S × state_space_t S C :=
  let r := checkLoop space.successors_function space.invariant
    space.cost_function space.initial_state goal_pred search_order fuel
    [space.initial_state] [] [] space.previous_cost
  (r.1, { space with previous_cost := r.2 })

/-- The free function `successors` of `reachability.hpp`: apply every
transition produced by the generator to a copy of the current state. -/
def successors (transitions : S → List (S → S)) : S → List S :=
  fun current_state =>
    (transitions current_state).map (fun transition => transition current_state)

/-- `validChain sf inv l` holds when every element of `l` after the first is
produced by the successor function at its predecessor and satisfies the
invariant: the solution-soundness property of the specification. -/
def validChain [DecidableEq S] (sf : S → List S) (inv : S → Bool) : List S → Bool
  | [] => true
  | [_] => true
  | a :: b :: rest => decide (b ∈ sf a) && inv b && validChain sf inv (b :: rest)

/-- The data-structure invariant of one search run: no duplicates in the
frontier, no duplicates in the explored set, and the two are disjoint. -/
abbrev RunInv (waiting passed : List S) : Prop :=
  waiting.Nodup ∧ passed.Nodup ∧ ∀ s ∈ waiting, s ∉ passed

/-- `Reach sf inv initial n s`: there is a chain of `n` generator transitions
from `initial` to `s` whose intermediate and final states all satisfy the
invariant. -/
inductive Reach (sf : S → List S) (inv : S → Bool) (initial : S) : Nat → S → Prop
  | refl : Reach sf inv initial 0 initial
  | tail {n : Nat} {p s : S} : Reach sf inv initial n p → s ∈ sf p →
      inv s = true → Reach sf inv initial (n + 1) s

/-- `PathOK sf inv initial trace passed s`: backtracking the trace map from
`s` succeeds and yields a valid solution chain from `initial` to `s` whose
elements other than `s` lie in the explored set. -/
def PathOK [DecidableEq S] [Inhabited S] (sf : S → List S) (inv : S → Bool)
    (initial : S) (trace : List (S × S)) (passed : List S) (s : S) : Prop :=
  ∃ pth, get_solution_from_trace trace initial (trace.length + 1) s [] = some pth ∧
    pth.head? = some initial ∧ pth.getLast? = some s ∧
    validChain sf inv pth = true ∧ ∀ x ∈ pth, x ∈ passed ∨ x = s

/-- The soundness invariant of the search loop: the initial state is in the
frontier or the explored set, and every frontier state backtracks to a valid
solution chain. -/
def CInv [DecidableEq S] [Inhabited S] (sf : S → List S) (inv : S → Bool)
    (initial : S) (waiting passed : List S) (trace : List (S × S)) : Prop :=
  (initial ∈ waiting ∨ initial ∈ passed) ∧
  ∀ s ∈ waiting, PathOK sf inv initial trace passed s

/-- `BElem trace initial passed s n`: backtracking the trace map from `s`
succeeds with a path of length `n` whose elements other than `s` lie in the
explored set. -/
def BElem [DecidableEq S] [Inhabited S] (trace : List (S × S)) (initial : S)
    (passed : List S) (s : S) (n : Nat) : Prop :=
  ∃ pth, get_solution_from_trace trace initial (trace.length + 1) s [] = some pth ∧
    pth.length = n ∧ ∀ x ∈ pth, x ∈ passed ∨ x = s

/-- The breadth-first level invariant: the frontier splits into a block `A`
of states at distance exactly `d` and a block `B` at distance exactly
`d + 1`; all explored states failed the goal; every state within distance
`d` has been discovered; explored states have all their valid successors
discovered; and the initial state has been discovered. -/
def BInvAt [DecidableEq S] [Inhabited S] (sf : S → List S) (inv : S → Bool)
    (goal_pred : S → Bool) (initial : S) (d : Nat) (A B passed : List S)
    (trace : List (S × S)) : Prop :=
  (∀ s ∈ A, Reach sf inv initial d s ∧ (∀ n, Reach sf inv initial n s → d ≤ n) ∧
    BElem trace initial passed s (d + 1)) ∧
  (∀ s ∈ B, Reach sf inv initial (d + 1) s ∧
    (∀ n, Reach sf inv initial n s → d + 1 ≤ n) ∧
    BElem trace initial passed s (d + 2)) ∧
  (∀ s ∈ passed, goal_pred s = false) ∧
  (∀ e s, e ≤ d → Reach sf inv initial e s → s ∈ passed ∨ s ∈ A ++ B) ∧
  (∀ p ∈ passed, ∀ s ∈ sf p, inv s = true → s ∈ passed ∨ s ∈ A ++ B) ∧
  (initial ∈ A ++ B ∨ initial ∈ passed)

end Reachability

namespace CostGuidedRerun

open Reachability

/-- Successor generator of the determinism counterexample: the initial
state `0` has the two successors `1` and `2`; everything else is terminal. -/
def ce7_sf : Nat → List Nat := fun n => if n = 0 then [1, 2] else []

/-- Goal of the determinism counterexample: reaching `1` or `2`. -/
def ce7_goal : Nat → Bool := fun n => n == 1 || n == 2

/-- Cost function of the determinism counterexample: it genuinely depends on
the previous-cost argument. -/
def ce7_cf : Nat → Int → Int := fun s prev =>
  if prev = 0 then (s : Int) else 10 - (s : Int)

/-- The engine of the determinism counterexample (five-argument
constructor, initial cost `0`). -/
def ce7_space : state_space_t Nat Int :=
  state_space_t.mk5 0 0 ce7_sf default_invariant ce7_cf

end CostGuidedRerun

namespace Frogs

open Reachability

/-- The `frog` enumeration of `frogs.cpp`. -/
inductive frog where
  | empty
  | green
  | brown
  deriving DecidableEq, Inhabited, Repr

/-- `stones_t = std::vector<frog>`. -/
abbrev stones_t := List frog

/-- The `transitions` function of `frogs.cpp`: find the first empty stone and
emit, in order, the green jump-to-next, green jump-over-one, brown
jump-to-next and brown jump-over-one moves that apply. -/
def transitions (stones : stones_t) : List (stones_t → stones_t) :=
  if stones.length < 2 then [] else
  let i := stones.findIdx (fun f => f = frog.empty)
  if i = stones.length then []
  else
    (if 0 < i ∧ stones.getD (i - 1) frog.empty = frog.green then
      [fun s => (s.set (i - 1) frog.empty).set i frog.green] else []) ++
    (if 1 < i ∧ stones.getD (i - 2) frog.empty = frog.green then
      [fun s => (s.set (i - 2) frog.empty).set i frog.green] else []) ++
    (if i < stones.length - 1 ∧ stones.getD (i + 1) frog.empty = frog.brown then
      [fun s => (s.set (i + 1) frog.empty).set i frog.brown] else []) ++
    (if i < stones.length - 2 ∧ stones.getD (i + 2) frog.empty = frog.brown then
      [fun s => (s.set (i + 2) frog.empty).set i frog.brown] else [])

/-- The `start` vector built by `solve(frogs)`: greens, one empty, browns. -/
def frogStart (frogs : Nat) : stones_t :=
  List.replicate frogs frog.green ++ [frog.empty] ++ List.replicate frogs frog.brown

/-- The `finish` vector built by `solve(frogs)`: browns, one empty, greens. -/
def frogFinish (frogs : Nat) : stones_t :=
  List.replicate frogs frog.brown ++ [frog.empty] ++ List.replicate frogs frog.green

/-- The state space constructed by `solve` (two-argument constructor, hence
default invariant, cost type `int`, costs `0`). -/
def frogSpace (frogs : Nat) : state_space_t stones_t Int :=
  state_space_t.mk3 (frogStart frogs) (successors transitions) default_invariant

/-- The goal predicate of `solve`: equality with the finish vector. -/
def frogGoal (frogs : Nat) : stones_t → Bool :=
  fun state => decide (state = frogFinish frogs)

end Frogs

/-! ## Helper lemmas -/

namespace Reachability

variable {S C : Type} [DecidableEq S] [Inhabited S] [LinearOrder C]

theorem gst_acc_subset {t : List (S × S)} {init : S} :
    ∀ {f : Nat} {s : S} {acc r : List S},
      get_solution_from_trace t init f s acc = some r → acc ⊆ r := by
  intro f
  induction f with
  | zero => intro s acc r h; simp [get_solution_from_trace] at h
  | succ f ih =>
    intro s acc r h
    rw [get_solution_from_trace] at h
    by_cases hs : s = init
    · rw [if_pos hs, Option.some.injEq] at h
      subst h; exact List.subset_cons_self _ _
    · rw [if_neg hs] at h
      exact fun a ha => ih h (List.mem_cons_of_mem _ ha)

theorem gst_mem {t : List (S × S)} {init : S} :
    ∀ {f : Nat} {s : S} {acc r : List S},
      get_solution_from_trace t init f s acc = some r → s ∈ r := by
  intro f
  induction f with
  | zero => intro s acc r h; simp [get_solution_from_trace] at h
  | succ f _ =>
    intro s acc r h
    rw [get_solution_from_trace] at h
    by_cases hs : s = init
    · rw [if_pos hs, Option.some.injEq] at h
      subst h; exact List.mem_cons_self _ _
    · rw [if_neg hs] at h
      exact gst_acc_subset h (List.mem_cons_self _ _)

theorem gst_mono {t : List (S × S)} {init : S} :
    ∀ {f : Nat} {s : S} {acc r : List S},
      get_solution_from_trace t init f s acc = some r →
      get_solution_from_trace t init (f + 1) s acc = some r := by
  intro f
  induction f with
  | zero => intro s acc r h; simp [get_solution_from_trace] at h
  | succ f ih =>
    intro s acc r h
    rw [get_solution_from_trace] at h
    rw [get_solution_from_trace]
    by_cases hs : s = init
    · rwa [if_pos hs] at h ⊢
    · rw [if_neg hs] at h ⊢
      exact ih h

theorem gst_acc {t : List (S × S)} {init : S} :
    ∀ {f : Nat} {s : S} {acc : List S},
      get_solution_from_trace t init f s acc =
        (get_solution_from_trace t init f s []).map (fun l => l ++ acc) := by
  intro f
  induction f with
  | zero => intro s acc; simp [get_solution_from_trace]
  | succ f ih =>
    intro s acc
    rw [get_solution_from_trace]
    conv_rhs => rw [get_solution_from_trace]
    by_cases hs : s = init
    · simp [hs]
    · rw [if_neg hs, if_neg hs]
      rw [@ih ((lookupTrace t s).getD default) (s :: acc),
        @ih ((lookupTrace t s).getD default) [s]]
      cases get_solution_from_trace t init f ((lookupTrace t s).getD default) [] with
      | none => simp
      | some l => simp

theorem gst_extend {t : List (S × S)} {init : S} {k v : S} :
    ∀ {f : Nat} {s : S} {acc r : List S},
      get_solution_from_trace t init f s acc = some r → k ∉ r →
      get_solution_from_trace ((k, v) :: t) init f s acc = some r := by
  intro f
  induction f with
  | zero => intro s acc r h; simp [get_solution_from_trace] at h
  | succ f ih =>
    intro s acc r h hk
    have hsr : s ∈ r := gst_mem h
    have hsk : s ≠ k := fun he => hk (he ▸ hsr)
    rw [get_solution_from_trace] at h
    rw [get_solution_from_trace]
    by_cases hs : s = init
    · rwa [if_pos hs] at h ⊢
    · rw [if_neg hs] at h ⊢
      have hl : lookupTrace ((k, v) :: t) s = lookupTrace t s := by
        simp [lookupTrace, hsk]
      rw [hl]
      exact ih h hk

theorem validChain_append_one {sf : S → List S} {inv : S → Bool} :
    ∀ {l : List S} {p b : S}, validChain sf inv l = true → l.getLast? = some p →
      b ∈ sf p → inv b = true → validChain sf inv (l ++ [b]) = true := by
  intro l
  induction l with
  | nil => intro p b _ hl; simp at hl
  | cons a l ih =>
    intro p b hv hl hb hib
    cases l with
    | nil =>
      simp only [List.getLast?_singleton, Option.some.injEq] at hl
      subst hl
      simp [validChain, hb, hib]
    | cons c l' =>
      rw [List.getLast?_cons_cons] at hl
      simp only [validChain, Bool.and_eq_true, decide_eq_true_eq] at hv
      have := ih hv.2 hl hb hib
      simp only [List.cons_append, validChain, Bool.and_eq_true, decide_eq_true_eq]
      exact ⟨⟨hv.1.1, hv.1.2⟩, this⟩

theorem validChain_decomp {sf : S → List S} {inv : S → Bool} :
    ∀ {l : List S} {b : S}, validChain sf inv (l ++ [b]) = true → l ≠ [] →
      ∃ p, l.getLast? = some p ∧ validChain sf inv l = true ∧
        b ∈ sf p ∧ inv b = true := by
  intro l
  induction l with
  | nil => intro b _ h; exact absurd rfl h
  | cons a l ih =>
    intro b hv _
    cases l with
    | nil =>
      simp only [List.nil_append, List.cons_append, validChain, Bool.and_eq_true,
        decide_eq_true_eq] at hv
      exact ⟨a, rfl, rfl, hv.1.1, hv.1.2⟩
    | cons c l' =>
      simp only [List.cons_append, validChain, Bool.and_eq_true, decide_eq_true_eq] at hv
      obtain ⟨p, hp, hvc, hb, hib⟩ := ih hv.2 (List.cons_ne_nil _ _)
      refine ⟨p, ?_, ?_, hb, hib⟩
      · rw [List.getLast?_cons_cons]; exact hp
      · simp only [validChain, Bool.and_eq_true, decide_eq_true_eq]
        exact ⟨⟨hv.1.1, hv.1.2⟩, hvc⟩

theorem chain_reach {sf : S → List S} {inv : S → Bool} {initial : S}
    (ch : List S) :
    validChain sf inv ch = true → ch.head? = some initial →
    ∀ {g : S}, ch.getLast? = some g →
      Reach sf inv initial (ch.length - 1) g := by
  induction ch using List.reverseRecOn with
  | nil => intro _ hh; simp at hh
  | append_singleton l a ih =>
    intro hv hh g hg
    rw [List.getLast?_concat] at hg
    injection hg with hg
    subst hg
    cases l with
    | nil =>
      simp only [List.nil_append, List.head?_cons, Option.some.injEq] at hh
      subst hh
      exact Reach.refl
    | cons x l' =>
      obtain ⟨p, hp, hvc, hb, hib⟩ := validChain_decomp hv (List.cons_ne_nil _ _)
      have hh' : (x :: l').head? = some initial := by
        rw [List.head?_append] at hh
        simpa using hh
      have hr := ih hvc hh' hp
      have hlen : (x :: l').length - 1 + 1 = (x :: l' ++ [a]).length - 1 := by
        simp
      exact hlen ▸ Reach.tail hr hb hib

end Reachability

namespace Reachability

variable {S C : Type} [DecidableEq S] [Inhabited S] [LinearOrder C]

theorem minIdx_cons_cons (x y : C) (rest : List C) :
    minIdx (x :: y :: rest) =
      if (y :: rest).getD (minIdx (y :: rest)) y < x then minIdx (y :: rest) + 1
      else 0 := rfl

theorem minIdx_lt_length : ∀ (l : List C), l ≠ [] → minIdx l < l.length := by
  intro l
  induction l with
  | nil => intro h; exact absurd rfl h
  | cons x l ih =>
    intro _
    cases l with
    | nil => simp [minIdx]
    | cons y rest =>
      rw [minIdx_cons_cons]
      split
      · have := ih (List.cons_ne_nil y rest)
        simp only [List.length_cons] at this ⊢
        omega
      · simp

theorem getD_indep (l : List C) {i : Nat} (hi : i < l.length) (d e : C) :
    l.getD i d = l.getD i e := by
  rw [List.getD_eq_getElem _ _ hi, List.getD_eq_getElem _ _ hi]

theorem minIdx_min (d : C) :
    ∀ (l : List C), ∀ j < l.length, l.getD (minIdx l) d ≤ l.getD j d := by
  intro l
  induction l with
  | nil => intro j hj; simp at hj
  | cons x l ih =>
    intro j hj
    cases l with
    | nil =>
      simp only [List.length_cons, List.length_nil] at hj
      have hj0 : j = 0 := by omega
      subst hj0
      simp [minIdx]
    | cons y rest =>
      have hmt : minIdx (y :: rest) < (y :: rest).length :=
        minIdx_lt_length _ (List.cons_ne_nil y rest)
      rw [minIdx_cons_cons]
      split
      · rename_i hlt
        rw [List.getD_cons_succ]
        cases j with
        | zero =>
          rw [List.getD_cons_zero]
          calc (y :: rest).getD (minIdx (y :: rest)) d
              = (y :: rest).getD (minIdx (y :: rest)) y := getD_indep _ hmt _ _
            _ ≤ x := le_of_lt hlt
        | succ k =>
          exact ih k (by simpa using hj)
      · rename_i hge
        push_neg at hge
        rw [List.getD_cons_zero]
        cases j with
        | zero => rw [List.getD_cons_zero]
        | succ k =>
          rw [List.getD_cons_succ]
          calc x ≤ (y :: rest).getD (minIdx (y :: rest)) y := hge
            _ = (y :: rest).getD (minIdx (y :: rest)) d := getD_indep _ hmt _ _
            _ ≤ (y :: rest).getD k d := ih k (by simpa using hj)

theorem minIdx_first (d : C) :
    ∀ (l : List C), ∀ j < minIdx l, l.getD (minIdx l) d < l.getD j d := by
  intro l
  induction l with
  | nil => intro j hj; simp [minIdx] at hj
  | cons x l ih =>
    intro j hj
    cases l with
    | nil => simp [minIdx] at hj
    | cons y rest =>
      have hmt : minIdx (y :: rest) < (y :: rest).length :=
        minIdx_lt_length _ (List.cons_ne_nil y rest)
      rw [minIdx_cons_cons] at hj ⊢
      split
      · rename_i hlt
        rw [List.getD_cons_succ]
        rw [if_pos hlt] at hj
        cases j with
        | zero =>
          rw [List.getD_cons_zero]
          calc (y :: rest).getD (minIdx (y :: rest)) d
              = (y :: rest).getD (minIdx (y :: rest)) y := getD_indep _ hmt _ _
            _ < x := hlt
        | succ k =>
          rw [List.getD_cons_succ]
          exact ih k (by omega)
      · rename_i hge
        rw [if_neg hge] at hj
        omega

theorem mem_eraseIdx_of_ne {l : List S} {i : Nat} (hi : i < l.length) (d : S)
    {s : S} (hs : s ∈ l) (hne : s ≠ l.getD i d) : s ∈ l.eraseIdx i := by
  have hsplit : l.take i ++ l.getD i d :: l.drop (i + 1) = l := by
    rw [List.getD_eq_getElem _ _ hi, ← List.drop_eq_getElem_cons hi,
      List.take_append_drop]
  rw [List.eraseIdx_eq_take_drop_succ]
  rw [← hsplit] at hs
  rcases List.mem_append.mp hs with h | h
  · exact List.mem_append.mpr (Or.inl h)
  · rcases List.mem_cons.mp h with h | h
    · exact absurd h hne
    · exact List.mem_append.mpr (Or.inr h)

theorem getD_not_mem_eraseIdx {l : List S} (hl : l.Nodup) {i : Nat}
    (hi : i < l.length) (d : S) : l.getD i d ∉ l.eraseIdx i := by
  have hsplit : l.take i ++ l.getD i d :: l.drop (i + 1) = l := by
    rw [List.getD_eq_getElem _ _ hi, ← List.drop_eq_getElem_cons hi,
      List.take_append_drop]
  rw [← hsplit] at hl
  rw [List.eraseIdx_eq_take_drop_succ]
  rw [List.nodup_append] at hl
  intro hmem
  rcases List.mem_append.mp hmem with h | h
  · exact hl.2.2 h (List.mem_cons_self _ _)
  · exact (List.nodup_cons.mp hl.2.1).1 h

theorem nodup_eraseIdx {l : List S} (hl : l.Nodup) (i : Nat) :
    (l.eraseIdx i).Nodup :=
  List.Nodup.sublist (List.eraseIdx_sublist l i) hl

theorem popstate_spec (order : search_order_t) (cf : S → C → C) (pc : C)
    (x : S) (xs : List S) :
    ∃ i, i < (x :: xs).length ∧
      (popstate order cf pc x xs).1 = (x :: xs).getD i x ∧
      (popstate order cf pc x xs).2.1 = (x :: xs).eraseIdx i := by
  cases order with
  | depth_first =>
    refine ⟨xs.length, by simp, ?_, ?_⟩
    · show (x :: xs).getLast (List.cons_ne_nil x xs) = _
      rw [List.getLast_eq_getElem,
        List.getD_eq_getElem _ _ (by simp : xs.length < (x :: xs).length)]
      simp
    · show (x :: xs).dropLast = _
      exact List.dropLast_eq_eraseIdx (by simp)
  | breadth_first => exact ⟨0, by simp, rfl, rfl⟩
  | cost_guided =>
    refine ⟨minIdx ((x :: xs).map (fun s => cf s pc)), ?_, rfl, rfl⟩
    have h := minIdx_lt_length ((x :: xs).map (fun s => cf s pc)) (by simp)
    simpa using h

end Reachability

namespace Reachability

variable {S C : Type} [DecidableEq S] [Inhabited S] [LinearOrder C]

theorem push_prefix (inv : S → Bool) (passed : List S) (curr : S) :
    ∀ (succs : List S) (w : List S) (t : List (S × S)),
      ∃ add, (pushSuccessors inv passed curr w t succs).1 = w ++ add := by
  intro succs
  induction succs with
  | nil => intro w t; exact ⟨[], by simp [pushSuccessors]⟩
  | cons s rest ih =>
    intro w t
    rw [pushSuccessors]
    split
    · obtain ⟨add, ha⟩ := ih (w ++ [s]) ((s, curr) :: t)
      exact ⟨[s] ++ add, by rw [ha, List.append_assoc]⟩
    · exact ih w t

theorem push_sub (inv : S → Bool) (passed : List S) (curr : S)
    (succs : List S) (w : List S) (t : List (S × S)) :
    w ⊆ (pushSuccessors inv passed curr w t succs).1 := by
  obtain ⟨add, ha⟩ := push_prefix inv passed curr succs w t
  rw [ha]
  exact List.subset_append_left w add

theorem push_covers (inv : S → Bool) (passed : List S) (curr : S) :
    ∀ (succs : List S) (w : List S) (t : List (S × S)), ∀ s ∈ succs,
      inv s = true →
      s ∈ (pushSuccessors inv passed curr w t succs).1 ∨ s ∈ passed := by
  intro succs
  induction succs with
  | nil => intro w t s hs; simp at hs
  | cons z rest ih =>
    intro w t s hs hinv
    rcases List.mem_cons.mp hs with hz | hs
    · subst hz
      rw [pushSuccessors]
      split
      · exact Or.inl (push_sub _ _ _ _ _ _ (List.mem_append.mpr (Or.inr (List.mem_singleton.mpr rfl))))
      · rename_i hc
        push_neg at hc
        rcases Decidable.em (s ∈ w) with hw | hw
        · exact Or.inl (push_sub _ _ _ _ _ _ hw)
        · exact Or.inr (hc hinv hw)
    · rw [pushSuccessors]
      split
      · exact ih (w ++ [z]) ((z, curr) :: t) s hs hinv
      · exact ih w t s hs hinv

theorem push_nodup (inv : S → Bool) (passed : List S) (curr : S) :
    ∀ (succs : List S) (w : List S) (t : List (S × S)),
      w.Nodup → (∀ z ∈ w, z ∉ passed) →
      (pushSuccessors inv passed curr w t succs).1.Nodup ∧
      ∀ z ∈ (pushSuccessors inv passed curr w t succs).1, z ∉ passed := by
  intro succs
  induction succs with
  | nil => intro w t hw hd; exact ⟨hw, hd⟩
  | cons s rest ih =>
    intro w t hw hd
    rw [pushSuccessors]
    split
    · rename_i hc
      refine ih (w ++ [s]) ((s, curr) :: t) ?_ ?_
      · rw [List.nodup_append]
        exact ⟨hw, List.nodup_singleton s,
          fun a ha hb => (List.mem_singleton.mp hb ▸ hc.2.1) ha⟩
      · intro z hz
        rcases List.mem_append.mp hz with h | h
        · exact hd z h
        · rw [List.mem_singleton.mp h]; exact hc.2.2
    · exact ih w t hw hd

theorem push_inv_agree {inv inv2 : S → Bool} {initial : S}
    (hagree : ∀ z, z ≠ initial → inv z = inv2 z) (passed : List S) (curr : S) :
    ∀ (succs : List S) (w : List S) (t : List (S × S)),
      (initial ∈ w ∨ initial ∈ passed) →
      pushSuccessors inv passed curr w t succs =
        pushSuccessors inv2 passed curr w t succs := by
  intro succs
  induction succs with
  | nil => intro w t _; rfl
  | cons s rest ih =>
    intro w t hinit
    have hcond : (inv s = true ∧ s ∉ w ∧ s ∉ passed) ↔
        (inv2 s = true ∧ s ∉ w ∧ s ∉ passed) := by
      constructor
      · rintro ⟨h1, h2, h3⟩
        have hs : s ≠ initial := by
          rintro rfl
          rcases hinit with h | h
          · exact h2 h
          · exact h3 h
        exact ⟨(hagree s hs) ▸ h1, h2, h3⟩
      · rintro ⟨h1, h2, h3⟩
        have hs : s ≠ initial := by
          rintro rfl
          rcases hinit with h | h
          · exact h2 h
          · exact h3 h
        exact ⟨(hagree s hs) ▸ h1, h2, h3⟩
    rw [pushSuccessors, pushSuccessors]
    by_cases hc : inv2 s = true ∧ s ∉ w ∧ s ∉ passed
    · rw [if_pos (hcond.mpr hc), if_pos hc]
      exact ih (w ++ [s]) ((s, curr) :: t)
        (hinit.imp (fun h => List.mem_append.mpr (Or.inl h)) id)
    · rw [if_neg (fun h => hc (hcond.mp h)), if_neg hc]
      exact ih w t hinit

theorem push_reject_all {inv : S → Bool} {initial : S}
    (hinv : ∀ z, inv z = true → z = initial) (passed : List S)
    (hip : initial ∈ passed) (curr : S) :
    ∀ (succs : List S) (w : List S) (t : List (S × S)),
      pushSuccessors inv passed curr w t succs = (w, t) := by
  intro succs
  induction succs with
  | nil => intro w t; rfl
  | cons s rest ih =>
    intro w t
    rw [pushSuccessors]
    rw [if_neg ?_]
    · exact ih w t
    · rintro ⟨h1, _, h3⟩
      exact h3 ((hinv s h1) ▸ hip)

theorem PathOK_mono {sf : S → List S} {inv : S → Bool} {initial : S}
    {t : List (S × S)} {p p2 : List S} (hsub : ∀ z ∈ p, z ∈ p2) {s : S}
    (h : PathOK sf inv initial t p s) : PathOK sf inv initial t p2 s := by
  obtain ⟨pth, h1, h2, h3, h4, h5⟩ := h
  exact ⟨pth, h1, h2, h3, h4, fun x hx => (h5 x hx).imp (hsub x) id⟩

end Reachability

namespace Reachability

variable {S C : Type} [DecidableEq S] [Inhabited S] [LinearOrder C]

theorem push_pathok {sf : S → List S} {inv : S → Bool} {initial : S}
    {passed : List S} {curr : S} :
    ∀ (succs : List S), (∀ z ∈ succs, z ∈ sf curr) →
    ∀ (w : List S) (t : List (S × S)),
      (initial ∈ w ∨ initial ∈ passed) →
      (∀ z ∈ w, PathOK sf inv initial t passed z) →
      (∃ pthc, get_solution_from_trace t initial (t.length + 1) curr [] = some pthc ∧
        pthc.head? = some initial ∧ pthc.getLast? = some curr ∧
        validChain sf inv pthc = true ∧ ∀ x ∈ pthc, x ∈ passed) →
      (initial ∈ (pushSuccessors inv passed curr w t succs).1 ∨ initial ∈ passed) ∧
      ∀ z ∈ (pushSuccessors inv passed curr w t succs).1,
        PathOK sf inv initial (pushSuccessors inv passed curr w t succs).2 passed z := by
  intro succs
  induction succs with
  | nil =>
    intro _ w t hinit hw _
    rw [pushSuccessors]
    exact ⟨hinit, hw⟩
  | cons s rest ih =>
    intro hsub w t hinit hw hcurr
    rw [pushSuccessors]
    split
    · rename_i hc
      obtain ⟨pthc, hgst, hhd, hlast, hvc, hmem⟩ := hcurr
      have hsp : s ∉ passed := hc.2.2
      have hspthc : s ∉ pthc := fun hm => hsp (hmem s hm)
      have hsne : s ≠ initial := by
        rintro rfl
        rcases hinit with h | h
        · exact hc.2.1 h
        · exact hsp h
      have hgst2 : get_solution_from_trace ((s, curr) :: t) initial
          (t.length + 1) curr [] = some pthc := gst_extend hgst hspthc
      have hgst3 : get_solution_from_trace ((s, curr) :: t) initial
          (((s, curr) :: t).length + 1) curr [] = some pthc := by
        simpa [List.length_cons] using gst_mono hgst2
      have hsgst : get_solution_from_trace ((s, curr) :: t) initial
          (((s, curr) :: t).length + 1) s [] = some (pthc ++ [s]) := by
        show get_solution_from_trace ((s, curr) :: t) initial
          (t.length + 1 + 1) s [] = _
        rw [get_solution_from_trace, if_neg hsne]
        have hlk : lookupTrace ((s, curr) :: t) s = some curr := by
          simp [lookupTrace]
        rw [hlk, Option.getD_some, gst_acc, hgst2]
        rfl
      have hnewPO : PathOK sf inv initial ((s, curr) :: t) passed s := by
        refine ⟨pthc ++ [s], hsgst, ?_, List.getLast?_concat _, ?_, ?_⟩
        · rw [List.head?_append, hhd]
          rfl
        · exact validChain_append_one hvc hlast
            (hsub s (List.mem_cons_self _ _)) hc.1
        · intro x hx
          rcases List.mem_append.mp hx with hx | hx
          · exact Or.inl (hmem x hx)
          · exact Or.inr (List.mem_singleton.mp hx)
      have hw2 : ∀ z ∈ w ++ [s],
          PathOK sf inv initial ((s, curr) :: t) passed z := by
        intro z hz
        rcases List.mem_append.mp hz with hzw | hzs
        · obtain ⟨pth, h1, h2, h3, h4, h5⟩ := hw z hzw
          have hspth : s ∉ pth := by
            intro hm
            rcases h5 s hm with h6 | h6
            · exact hsp h6
            · rw [← h6] at hzw
              exact hc.2.1 hzw
          have h1x : get_solution_from_trace ((s, curr) :: t) initial
              (((s, curr) :: t).length + 1) z [] = some pth := by
            simpa [List.length_cons] using gst_mono (gst_extend h1 hspth)
          exact ⟨pth, h1x, h2, h3, h4, h5⟩
        · rw [List.mem_singleton.mp hzs]
          exact hnewPO
      exact ih (fun z hz => hsub z (List.mem_cons_of_mem _ hz)) (w ++ [s])
        ((s, curr) :: t) (hinit.imp (fun h => List.mem_append.mpr (Or.inl h)) id)
        hw2 ⟨pthc, hgst3, hhd, hlast, hvc, hmem⟩
    · exact ih (fun z hz => hsub z (List.mem_cons_of_mem _ hz)) w t hinit hw hcurr

theorem checkLoop_found_sound {sf : S → List S} {inv : S → Bool}
    {cf : S → C → C} {initial : S} {goal_pred : S → Bool}
    {order : search_order_t} :
    ∀ (fuel : Nat) (w p : List S) (t : List (S × S)) (pc : C) {sol : List S}
      {pc2 : C},
      CInv sf inv initial w p t →
      checkLoop sf inv cf initial goal_pred order fuel w p t pc =
        (.found sol, pc2) →
      sol.head? = some initial ∧
      (∃ g, sol.getLast? = some g ∧ goal_pred g = true) ∧
      validChain sf inv sol = true := by
  intro fuel
  induction fuel with
  | zero =>
    intro w p t pc sol pc2 _ h
    simp [checkLoop] at h
  | succ fuel ih =>
    intro w p t pc sol pc2 hCI h
    cases w with
    | nil =>
      rw [checkLoop] at h
      simp [stepLoop] at h
    | cons x xs =>
      obtain ⟨i, hi, h1, h2⟩ := popstate_spec order cf pc x xs
      have hcm : (popstate order cf pc x xs).1 ∈ x :: xs := by
        rw [h1, List.getD_eq_getElem _ _ hi]
        exact List.getElem_mem hi
      have hPO := hCI.2 _ hcm
      rw [checkLoop] at h
      by_cases hg : goal_pred (popstate order cf pc x xs).1 = true
      · obtain ⟨pth, hgst, hhd, hlast, hvc, _⟩ := hPO
        have hstep : stepLoop sf inv cf initial goal_pred order (x :: xs) p t pc
            = .done (.found pth) (popstate order cf pc x xs).2.2 := by
          simp only [stepLoop]
          rw [if_pos hg, hgst]
        rw [hstep] at h
        simp only [Prod.mk.injEq, SearchResult.found.injEq] at h
        obtain ⟨hsol, _⟩ := h
        subst hsol
        exact ⟨hhd, ⟨(popstate order cf pc x xs).1, hlast, hg⟩, hvc⟩
      · have hstep : stepLoop sf inv cf initial goal_pred order (x :: xs) p t pc
            = .next (pushSuccessors inv (p ++ [(popstate order cf pc x xs).1])
                (popstate order cf pc x xs).1 (popstate order cf pc x xs).2.1 t
                (sf (popstate order cf pc x xs).1)).1
              (p ++ [(popstate order cf pc x xs).1])
              (pushSuccessors inv (p ++ [(popstate order cf pc x xs).1])
                (popstate order cf pc x xs).1 (popstate order cf pc x xs).2.1 t
                (sf (popstate order cf pc x xs).1)).2
              (popstate order cf pc x xs).2.2 := by
          simp only [stepLoop]
          rw [if_neg hg]
        rw [hstep] at h
        have hinitw : initial ∈ (popstate order cf pc x xs).2.1 ∨
            initial ∈ p ++ [(popstate order cf pc x xs).1] := by
          rcases hCI.1 with hiw | hip
          · by_cases hie : initial = (popstate order cf pc x xs).1
            · exact Or.inr (List.mem_append.mpr (Or.inr
                (List.mem_singleton.mpr hie)))
            · refine Or.inl ?_
              rw [h2]
              exact mem_eraseIdx_of_ne hi x hiw (fun he => hie (he.trans h1.symm))
          · exact Or.inr (List.mem_append.mpr (Or.inl hip))
        have hwarg : ∀ z ∈ (popstate order cf pc x xs).2.1,
            PathOK sf inv initial t (p ++ [(popstate order cf pc x xs).1]) z := by
          intro z hz
          refine PathOK_mono (fun a ha => List.mem_append.mpr (Or.inl ha)) ?_
          refine hCI.2 z ?_
          rw [h2] at hz
          exact List.eraseIdx_subset _ _ hz
        have hcurrarg : ∃ pthc, get_solution_from_trace t initial (t.length + 1)
            (popstate order cf pc x xs).1 [] = some pthc ∧
            pthc.head? = some initial ∧
            pthc.getLast? = some (popstate order cf pc x xs).1 ∧
            validChain sf inv pthc = true ∧
            ∀ a ∈ pthc, a ∈ p ++ [(popstate order cf pc x xs).1] := by
          obtain ⟨pth, hgst, hhd, hlast, hvc, hmem⟩ := hPO
          refine ⟨pth, hgst, hhd, hlast, hvc, fun a ha => ?_⟩
          rcases hmem a ha with hax | hax
          · exact List.mem_append.mpr (Or.inl hax)
          · exact List.mem_append.mpr (Or.inr (List.mem_singleton.mpr hax))
        have hpush := push_pathok (sf (popstate order cf pc x xs).1)
          (fun z hz => hz) (popstate order cf pc x xs).2.1 t hinitw hwarg hcurrarg
        exact ih _ _ _ _ ⟨hpush.1, hpush.2⟩ h

end Reachability

/-! ## Claim C1 -/

/-- C1: for every search order and all client inputs, a solution sequence
returned by the search operation starts at the initial configuration, ends in
a configuration accepted by the goal predicate, every adjacent pair is
connected by a transition of the successor generator, and every element after
the first satisfies the invariant. -/
theorem C1_solution_sound {S C : Type} [DecidableEq S] [Inhabited S]
    [LinearOrder C] (space : Reachability.state_space_t S C)
    (goal_pred : S → Bool) (order : Reachability.search_order_t) (fuel : Nat)
    (sol : List S)
    (h : (Reachability.check space goal_pred order fuel).1 =
      Reachability.SearchResult.found sol) :
    sol.head? = some space.initial_state ∧
    (∃ g, sol.getLast? = some g ∧ goal_pred g = true) ∧
    Reachability.validChain space.successors_function space.invariant sol
      = true := by
  have hCI : Reachability.CInv space.successors_function space.invariant
      space.initial_state [space.initial_state] [] [] := by
    constructor
    · exact Or.inl (List.mem_singleton.mpr rfl)
    · intro s hs
      rw [List.mem_singleton] at hs
      subst hs
      refine ⟨[space.initial_state], ?_, rfl, by simp, rfl, ?_⟩
      · simp [Reachability.get_solution_from_trace]
      · intro x hx
        exact Or.inr (List.mem_singleton.mp hx)
  have hpair : Reachability.checkLoop space.successors_function space.invariant
      space.cost_function space.initial_state goal_pred order fuel
      [space.initial_state] [] [] space.previous_cost =
      (Reachability.SearchResult.found sol,
        (Reachability.checkLoop space.successors_function space.invariant
          space.cost_function space.initial_state goal_pred order fuel
          [space.initial_state] [] [] space.previous_cost).2) :=
    Prod.ext h rfl
  exact Reachability.checkLoop_found_sound fuel _ _ _ _ hCI hpair

/-- Witness for C1 on a two-state graph searched breadth-first. -/
theorem C1_solution_sound_witness :
    ((Reachability.check
        (Reachability.state_space_t.mk5 (0 : Nat) (0 : Int)
          (fun n => if n = 0 then [1] else []) Reachability.default_invariant
          (fun _ _ => 0))
        (fun n => n == 1) Reachability.search_order_t.breadth_first 5).1 =
      Reachability.SearchResult.found [0, 1]) ∧
    (([0, 1] : List Nat).head? = some (0 : Nat) ∧
      (∃ g, ([0, 1] : List Nat).getLast? = some g ∧ (g == 1) = true) ∧
      Reachability.validChain (fun n => if n = 0 then [1] else [])
        Reachability.default_invariant [0, 1] = true) :=
  ⟨by decide,
    C1_solution_sound
      (Reachability.state_space_t.mk5 (0 : Nat) (0 : Int)
        (fun n => if n = 0 then [1] else []) Reachability.default_invariant
        (fun _ _ => 0))
      (fun n => n == 1) Reachability.search_order_t.breadth_first 5 [0, 1]
      (by decide)⟩

namespace Reachability

variable {S C : Type} [DecidableEq S] [Inhabited S] [LinearOrder C]

theorem popstate_singleton (order : search_order_t) (cf : S → C → C) (pc : C)
    (x : S) :
    (popstate order cf pc x []).1 = x ∧ (popstate order cf pc x []).2.1 = [] := by
  cases order with
  | depth_first => exact ⟨rfl, rfl⟩
  | breadth_first => exact ⟨rfl, rfl⟩
  | cost_guided => exact ⟨rfl, rfl⟩

theorem checkLoop_empty_noSolution {sf : S → List S} {inv : S → Bool}
    {cf : S → C → C} {initial : S} {goal_pred : S → Bool}
    {order : search_order_t} (f : Nat) (p : List S) (t : List (S × S)) (pc : C) :
    (checkLoop sf inv cf initial goal_pred order (f + 1) [] p t pc).1 =
      .noSolution := by
  rw [checkLoop]
  rfl

theorem stepLoop_reject_all {sf : S → List S} {inv : S → Bool}
    {cf : S → C → C} {initial : S} {goal_pred : S → Bool}
    {order : search_order_t}
    (hinv : ∀ z, inv z = true → z = initial)
    (hgoal : goal_pred initial = false) (pc : C) :
    stepLoop sf inv cf initial goal_pred order [initial] [] [] pc =
      .next [] [initial] [] (popstate order cf pc initial []).2.2 := by
  obtain ⟨hp1, hp2⟩ := popstate_singleton order cf pc initial
  simp only [stepLoop, hp1, hp2, hgoal]
  rw [if_neg (by simp)]
  rw [List.nil_append]
  rw [push_reject_all hinv [initial] (List.mem_singleton.mpr rfl) initial]

end Reachability

/-! ## Claim C3 -/

/-- C3: in cost-guided order, `popstate` evaluates the cost function on every
frontier configuration with the single running previous cost, selects the
configuration whose cost is minimal, breaking ties by the first occurrence in
frontier order, removes exactly that configuration from the frontier, and
returns its computed cost as the new running previous cost. -/
theorem C3_cost_guided_selection {S C : Type} [DecidableEq S] [Inhabited S]
    [LinearOrder C] (cf : S → C → C) (pc : C) (x : S) (xs : List S) :
    Reachability.popstate Reachability.search_order_t.cost_guided cf pc x xs =
      ((x :: xs).getD (Reachability.minIdx ((x :: xs).map (fun s => cf s pc))) x,
        (x :: xs).eraseIdx
          (Reachability.minIdx ((x :: xs).map (fun s => cf s pc))),
        ((x :: xs).map (fun s => cf s pc)).getD
          (Reachability.minIdx ((x :: xs).map (fun s => cf s pc))) (cf x pc)) ∧
    Reachability.minIdx ((x :: xs).map (fun s => cf s pc)) < (x :: xs).length ∧
    ((x :: xs).map (fun s => cf s pc)).getD
        (Reachability.minIdx ((x :: xs).map (fun s => cf s pc))) (cf x pc) =
      cf ((x :: xs).getD
        (Reachability.minIdx ((x :: xs).map (fun s => cf s pc))) x) pc ∧
    (∀ j, j < ((x :: xs).map (fun s => cf s pc)).length →
      ((x :: xs).map (fun s => cf s pc)).getD
          (Reachability.minIdx ((x :: xs).map (fun s => cf s pc))) (cf x pc) ≤
        ((x :: xs).map (fun s => cf s pc)).getD j (cf x pc)) ∧
    (∀ j, j < Reachability.minIdx ((x :: xs).map (fun s => cf s pc)) →
      ((x :: xs).map (fun s => cf s pc)).getD
          (Reachability.minIdx ((x :: xs).map (fun s => cf s pc))) (cf x pc) <
        ((x :: xs).map (fun s => cf s pc)).getD j (cf x pc)) := by
  have hne : (x :: xs).map (fun s => cf s pc) ≠ [] := by simp
  have hilt := Reachability.minIdx_lt_length _ hne
  have hlen : ((x :: xs).map (fun s => cf s pc)).length = (x :: xs).length := by
    simp
  refine ⟨rfl, by omega, ?_, fun j hj => Reachability.minIdx_min _ _ j hj,
    fun j hj => Reachability.minIdx_first _ _ j hj⟩
  rw [List.getD_eq_getElem _ _ hilt, List.getD_eq_getElem _ _ (by omega)]
  simp only [List.getElem_map]

/-- Witness for C3 on a concrete three-element frontier with costs
`[5, 3, 3]`: the second configuration is selected (first minimum). -/
theorem C3_cost_guided_selection_witness :
    (Reachability.popstate Reachability.search_order_t.cost_guided
        (fun (n : Nat) (_ : Int) => if n = 0 then 5 else 3) 0 0 [1, 2] =
      (1, [0, 2], 3)) ∧
    (([5, 3, 3] : List Int).getD 1 5 ≤ ([5, 3, 3] : List Int).getD 0 5) ∧
    (([5, 3, 3] : List Int).getD 1 5 < ([5, 3, 3] : List Int).getD 0 5) := by
  have h := C3_cost_guided_selection
    (fun (n : Nat) (_ : Int) => if n = 0 then 5 else 3) 0 0 [1, 2]
  refine ⟨?_, ?_, ?_⟩
  · have h1 := h.1
    rw [h1]
    decide
  · have h4 := h.2.2.2.1 0 (by decide)
    simpa using h4
  · have h5 := h.2.2.2.2 0 (by decide)
    simpa using h5

/-! ## Claim C4 -/

/-- C4: for every search order, an exhausted frontier makes the search
operation terminate with the no-solution failure; in particular, an invariant
accepting only the initial configuration (with the goal failing there)
exhausts the frontier after one expansion. -/
theorem C4_no_solution_found {S C : Type} [DecidableEq S] [Inhabited S]
    [LinearOrder C] (space : Reachability.state_space_t S C)
    (goal_pred : S → Bool) (order : Reachability.search_order_t) (fuel : Nat)
    (hinv : ∀ z, space.invariant z = true → z = space.initial_state)
    (hgoal : goal_pred space.initial_state = false) :
    (∀ (f : Nat) (p : List S) (t : List (S × S)) (pc : C),
      (Reachability.checkLoop space.successors_function space.invariant
        space.cost_function space.initial_state goal_pred order (f + 1)
        [] p t pc).1 = Reachability.SearchResult.noSolution) ∧
    (Reachability.check space goal_pred order (fuel + 2)).1 =
      Reachability.SearchResult.noSolution := by
  constructor
  · intro f p t pc
    exact Reachability.checkLoop_empty_noSolution f p t pc
  · show (Reachability.checkLoop space.successors_function space.invariant
      space.cost_function space.initial_state goal_pred order (fuel + 2)
      [space.initial_state] [] [] space.previous_cost).1 = _
    rw [Reachability.checkLoop,
      Reachability.stepLoop_reject_all hinv hgoal space.previous_cost]
    exact Reachability.checkLoop_empty_noSolution fuel _ _ _

/-- Witness for C4: a two-state graph whose invariant rejects the successor. -/
theorem C4_no_solution_found_witness :
    (Reachability.check
      (Reachability.state_space_t.mk5 (0 : Nat) (0 : Int)
        (fun n => if n = 0 then [1] else []) (fun z => z == 0) (fun _ _ => 0))
      (fun n => n == 1) Reachability.search_order_t.depth_first 2).1 =
      Reachability.SearchResult.noSolution :=
  (C4_no_solution_found
    (Reachability.state_space_t.mk5 (0 : Nat) (0 : Int)
      (fun n => if n = 0 then [1] else []) (fun z => z == 0) (fun _ _ => 0))
    (fun n => n == 1) Reachability.search_order_t.depth_first 0
    (fun z hz => by
      simp [Reachability.state_space_t.mk5] at hz ⊢
      exact hz) (by decide)).2

/-! ## Claim C5 -/

/-- C5: a candidate successor is admitted into the frontier exactly when the
invariant accepts it and it is in neither the frontier nor the explored set;
on admission the trace records its parent and it is appended to the frontier,
and a rejected candidate leaves frontier, explored set and trace unchanged. -/
theorem C5_candidate_admission {S : Type} [DecidableEq S] (inv : S → Bool)
    (passed : List S) (curr succ : S) (waiting : List S)
    (trace : List (S × S)) (rest : List S) :
    (inv succ = true ∧ succ ∉ waiting ∧ succ ∉ passed →
      Reachability.pushSuccessors inv passed curr waiting trace (succ :: rest) =
        Reachability.pushSuccessors inv passed curr (waiting ++ [succ])
          ((succ, curr) :: trace) rest) ∧
    (¬(inv succ = true ∧ succ ∉ waiting ∧ succ ∉ passed) →
      Reachability.pushSuccessors inv passed curr waiting trace (succ :: rest) =
        Reachability.pushSuccessors inv passed curr waiting trace rest) := by
  constructor
  · intro hc
    rw [Reachability.pushSuccessors, if_pos hc]
  · intro hc
    rw [Reachability.pushSuccessors, if_neg hc]

/-- Witness for C5: one admitted candidate and one rejected duplicate. -/
theorem C5_candidate_admission_witness :
    (Reachability.pushSuccessors Reachability.default_invariant [(0 : Nat)] 0
        [] [] [1] =
      Reachability.pushSuccessors Reachability.default_invariant [0] 0
        ([] ++ [1]) [(1, 0)] []) ∧
    (Reachability.pushSuccessors Reachability.default_invariant [(0 : Nat)] 0
        [] [] [0] =
      Reachability.pushSuccessors Reachability.default_invariant [0] 0
        [] [] []) :=
  ⟨(C5_candidate_admission Reachability.default_invariant [0] 0 1 [] [] []).1
      (by decide),
    (C5_candidate_admission Reachability.default_invariant [0] 0 0 [] [] []).2
      (by decide)⟩

namespace Reachability

variable {S C : Type} [DecidableEq S] [Inhabited S] [LinearOrder C]

theorem popstate_pc {order : search_order_t} (h : order ≠ .cost_guided)
    (cf : S → C → C) (pc : C) (x : S) (xs : List S) :
    (popstate order cf pc x xs).2.2 = pc := by
  cases order with
  | depth_first => rfl
  | breadth_first => rfl
  | cost_guided => exact absurd rfl h

theorem stepLoop_pc_done {sf : S → List S} {inv : S → Bool} {cf : S → C → C}
    {initial : S} {goal_pred : S → Bool} {order : search_order_t}
    (ho : order ≠ .cost_guided) {w p : List S} {t : List (S × S)} {pc : C}
    {r : SearchResult S} {pc2 : C}
    (h : stepLoop sf inv cf initial goal_pred order w p t pc = .done r pc2) :
    pc2 = pc := by
  cases w with
  | nil =>
    rw [stepLoop] at h
    injection h with _ h2
    exact h2.symm
  | cons x xs =>
    simp only [stepLoop] at h
    by_cases hg : goal_pred (popstate order cf pc x xs).1 = true
    · rw [if_pos hg] at h
      rcases hgst : get_solution_from_trace t initial (t.length + 1)
          (popstate order cf pc x xs).1 [] with _ | sol
      · rw [hgst] at h
        injection h with _ h2
        rw [← h2]
        exact popstate_pc ho cf pc x xs
      · rw [hgst] at h
        injection h with _ h2
        rw [← h2]
        exact popstate_pc ho cf pc x xs
    · rw [if_neg hg] at h
      exact StepOut.noConfusion h

theorem stepLoop_pc_next {sf : S → List S} {inv : S → Bool} {cf : S → C → C}
    {initial : S} {goal_pred : S → Bool} {order : search_order_t}
    (ho : order ≠ .cost_guided) {w p : List S} {t : List (S × S)} {pc : C}
    {w2 p2 : List S} {t2 : List (S × S)} {pc2 : C}
    (h : stepLoop sf inv cf initial goal_pred order w p t pc =
      .next w2 p2 t2 pc2) : pc2 = pc := by
  cases w with
  | nil =>
    rw [stepLoop] at h
    exact StepOut.noConfusion h
  | cons x xs =>
    simp only [stepLoop] at h
    by_cases hg : goal_pred (popstate order cf pc x xs).1 = true
    · rw [if_pos hg] at h
      rcases hgst : get_solution_from_trace t initial (t.length + 1)
          (popstate order cf pc x xs).1 [] with _ | sol
      · rw [hgst] at h
        exact StepOut.noConfusion h
      · rw [hgst] at h
        exact StepOut.noConfusion h
    · rw [if_neg hg] at h
      injection h with _ _ _ h4
      rw [← h4]
      exact popstate_pc ho cf pc x xs

theorem checkLoop_pc_const {sf : S → List S} {inv : S → Bool} {cf : S → C → C}
    {initial : S} {goal_pred : S → Bool} {order : search_order_t}
    (ho : order ≠ .cost_guided) :
    ∀ (fuel : Nat) (w p : List S) (t : List (S × S)) (pc : C),
      (checkLoop sf inv cf initial goal_pred order fuel w p t pc).2 = pc := by
  intro fuel
  induction fuel with
  | zero => intro w p t pc; rfl
  | succ fuel ih =>
    intro w p t pc
    rw [checkLoop]
    rcases hs : stepLoop sf inv cf initial goal_pred order w p t pc with
      ⟨r, pcd⟩ | ⟨w2, p2, t2, pc2⟩
    · exact stepLoop_pc_done ho hs
    · rw [ih w2 p2 t2 pc2]
      exact stepLoop_pc_next ho hs

theorem step_init_mem {sf : S → List S} {inv : S → Bool} {cf : S → C → C}
    {initial : S} {goal_pred : S → Bool} {order : search_order_t}
    {w p : List S} {t : List (S × S)} {pc : C} {w2 p2 : List S}
    {t2 : List (S × S)} {pc2 : C}
    (h : stepLoop sf inv cf initial goal_pred order w p t pc =
      .next w2 p2 t2 pc2)
    (hinit : initial ∈ w ∨ initial ∈ p) : initial ∈ w2 ∨ initial ∈ p2 := by
  cases w with
  | nil =>
    rw [stepLoop] at h
    exact StepOut.noConfusion h
  | cons x xs =>
    simp only [stepLoop] at h
    by_cases hg : goal_pred (popstate order cf pc x xs).1 = true
    · rw [if_pos hg] at h
      rcases hgst : get_solution_from_trace t initial (t.length + 1)
          (popstate order cf pc x xs).1 [] with _ | sol
      · rw [hgst] at h
        exact StepOut.noConfusion h
      · rw [hgst] at h
        exact StepOut.noConfusion h
    · rw [if_neg hg] at h
      injection h with h1 h2 h3 _
      obtain ⟨i, hi, hc1, hc2⟩ := popstate_spec order cf pc x xs
      rcases hinit with hiw | hip
      · by_cases hie : initial = (popstate order cf pc x xs).1
        · refine Or.inr ?_
          rw [← h2]
          exact List.mem_append.mpr (Or.inr (List.mem_singleton.mpr hie))
        · refine Or.inl ?_
          rw [← h1]
          refine push_sub _ _ _ _ _ _ ?_
          rw [hc2]
          exact mem_eraseIdx_of_ne hi x hiw
            (fun he => hie (he.trans hc1.symm))
      · refine Or.inr ?_
        rw [← h2]
        exact List.mem_append.mpr (Or.inl hip)

theorem stepLoop_inv_agree {sf : S → List S} {inv inv2 : S → Bool}
    {cf : S → C → C} {initial : S} {goal_pred : S → Bool}
    {order : search_order_t}
    (hagree : ∀ z, z ≠ initial → inv z = inv2 z) (w p : List S)
    (t : List (S × S)) (pc : C) (hinit : initial ∈ w ∨ initial ∈ p) :
    stepLoop sf inv cf initial goal_pred order w p t pc =
      stepLoop sf inv2 cf initial goal_pred order w p t pc := by
  cases w with
  | nil => rfl
  | cons x xs =>
    simp only [stepLoop]
    by_cases hg : goal_pred (popstate order cf pc x xs).1 = true
    · rw [if_pos hg, if_pos hg]
    · rw [if_neg hg, if_neg hg]
      obtain ⟨i, hi, hc1, hc2⟩ := popstate_spec order cf pc x xs
      have hinitw : initial ∈ (popstate order cf pc x xs).2.1 ∨
          initial ∈ p ++ [(popstate order cf pc x xs).1] := by
        rcases hinit with hiw | hip
        · by_cases hie : initial = (popstate order cf pc x xs).1
          · exact Or.inr (List.mem_append.mpr
              (Or.inr (List.mem_singleton.mpr hie)))
          · refine Or.inl ?_
            rw [hc2]
            exact mem_eraseIdx_of_ne hi x hiw
              (fun he => hie (he.trans hc1.symm))
        · exact Or.inr (List.mem_append.mpr (Or.inl hip))
      rw [push_inv_agree hagree (p ++ [(popstate order cf pc x xs).1])
        (popstate order cf pc x xs).1 (sf (popstate order cf pc x xs).1)
        (popstate order cf pc x xs).2.1 t hinitw]

theorem checkLoop_inv_agree {sf : S → List S} {inv inv2 : S → Bool}
    {cf : S → C → C} {initial : S} {goal_pred : S → Bool}
    {order : search_order_t}
    (hagree : ∀ z, z ≠ initial → inv z = inv2 z) :
    ∀ (fuel : Nat) (w p : List S) (t : List (S × S)) (pc : C),
      (initial ∈ w ∨ initial ∈ p) →
      checkLoop sf inv cf initial goal_pred order fuel w p t pc =
        checkLoop sf inv2 cf initial goal_pred order fuel w p t pc := by
  intro fuel
  induction fuel with
  | zero => intro w p t pc _; rfl
  | succ fuel ih =>
    intro w p t pc hinit
    rw [checkLoop, checkLoop, ← stepLoop_inv_agree hagree w p t pc hinit]
    rcases hs : stepLoop sf inv cf initial goal_pred order w p t pc with
      ⟨r, pcd⟩ | ⟨w2, p2, t2, pc2⟩
    · rfl
    · exact ih w2 p2 t2 pc2 (step_init_mem hs hinit)

end Reachability

/-! ## Claim C6 -/

/-- C6: the singleton initial frontier with empty explored set satisfies the
run invariant, and every loop iteration preserves it: the frontier and the
explored set stay duplicate-free and disjoint, the explored set only grows,
and no explored configuration is ever re-inserted into the frontier. -/
theorem C6_frontier_explored_disjoint {S C : Type} [DecidableEq S]
    [Inhabited S] [LinearOrder C] (sf : S → List S) (inv : S → Bool)
    (cf : S → C → C) (initial : S) (goal_pred : S → Bool)
    (order : Reachability.search_order_t) :
    Reachability.RunInv [initial] ([] : List S) ∧
    ∀ (w p : List S) (t : List (S × S)) (pc : C) (w2 p2 : List S)
      (t2 : List (S × S)) (pc2 : C),
      Reachability.RunInv w p →
      Reachability.stepLoop sf inv cf initial goal_pred order w p t pc =
        Reachability.StepOut.next w2 p2 t2 pc2 →
      Reachability.RunInv w2 p2 ∧ (∀ s ∈ p, s ∈ p2) ∧ (∀ s ∈ p, s ∉ w2) := by
  constructor
  · exact ⟨List.nodup_singleton _, List.nodup_nil, by simp⟩
  · intro w p t pc w2 p2 t2 pc2 hRI hstep
    cases w with
    | nil =>
      rw [Reachability.stepLoop] at hstep
      exact Reachability.StepOut.noConfusion hstep
    | cons x xs =>
      obtain ⟨i, hi, h1, h2⟩ := Reachability.popstate_spec order cf pc x xs
      simp only [Reachability.stepLoop] at hstep
      by_cases hg : goal_pred (Reachability.popstate order cf pc x xs).1 = true
      · rw [if_pos hg] at hstep
        rcases hgst : Reachability.get_solution_from_trace t initial
            (t.length + 1) (Reachability.popstate order cf pc x xs).1 [] with
          _ | sol
        · rw [hgst] at hstep
          exact Reachability.StepOut.noConfusion hstep
        · rw [hgst] at hstep
          exact Reachability.StepOut.noConfusion hstep
      · rw [if_neg hg] at hstep
        injection hstep with e1 e2 e3 e4
        obtain ⟨hwnd, hpnd, hdisj⟩ := hRI
        have hcm : (Reachability.popstate order cf pc x xs).1 ∈ x :: xs := by
          rw [h1, List.getD_eq_getElem _ _ hi]
          exact List.getElem_mem hi
        have hcp : (Reachability.popstate order cf pc x xs).1 ∉ p := hdisj _ hcm
        have hp2nd : (p ++ [(Reachability.popstate order cf pc x xs).1]).Nodup := by
          rw [List.nodup_append]
          exact ⟨hpnd, List.nodup_singleton _,
            fun a ha hb => hcp ((List.mem_singleton.mp hb) ▸ ha)⟩
        have hwnd2 : (Reachability.popstate order cf pc x xs).2.1.Nodup := by
          rw [h2]
          exact Reachability.nodup_eraseIdx hwnd i
        have hwp2 : ∀ z ∈ (Reachability.popstate order cf pc x xs).2.1,
            z ∉ p ++ [(Reachability.popstate order cf pc x xs).1] := by
          intro z hz hmem
          rcases List.mem_append.mp hmem with hzp | hzc
          · refine hdisj z ?_ hzp
            rw [h2] at hz
            exact List.eraseIdx_subset _ _ hz
          · have hni : (x :: xs).getD i x ∉ (x :: xs).eraseIdx i :=
              Reachability.getD_not_mem_eraseIdx hwnd hi x
            rw [List.mem_singleton.mp hzc, h1] at hz
            rw [h2] at hz
            exact hni hz
        have hpush := Reachability.push_nodup inv
          (p ++ [(Reachability.popstate order cf pc x xs).1])
          (Reachability.popstate order cf pc x xs).1
          (sf (Reachability.popstate order cf pc x xs).1)
          (Reachability.popstate order cf pc x xs).2.1 t hwnd2 hwp2
        subst e1 e2 e3
        refine ⟨⟨hpush.1, hp2nd, hpush.2⟩,
          fun s hs => List.mem_append.mpr (Or.inl hs), ?_⟩
        intro s hs hsw2
        exact hpush.2 s hsw2 (List.mem_append.mpr (Or.inl hs))

/-- Witness for C6: one concrete loop iteration on a two-state graph. -/
theorem C6_frontier_explored_disjoint_witness :
    Reachability.RunInv ([] : List Nat) [0, 1] ∧ (∀ s ∈ [(0 : Nat)], s ∈ [0, 1]) ∧
      (∀ s ∈ [(0 : Nat)], s ∉ ([] : List Nat)) :=
  (C6_frontier_explored_disjoint (fun n => if n = 0 then [1] else [])
      Reachability.default_invariant (fun _ _ => (0 : Int)) 0
      (fun n => n == 5) Reachability.search_order_t.breadth_first).2
    [1] [0] [(1, 0)] 0 [] [0, 1] [(1, 0)] 0 (by decide) (by decide)

/-! ## Claim C7 -/

/-- Counterexample to C7 as stated: with cost-guided order and a cost
function that reads the previous-cost argument, a second `check` call on the
same engine instance returns a different solution sequence, because the
`previous_cost` member is not reset between runs. -/
theorem C7_rerun_counterexample :
    (Reachability.check CostGuidedRerun.ce7_space CostGuidedRerun.ce7_goal
        Reachability.search_order_t.cost_guided 10).1 =
      Reachability.SearchResult.found [0, 1] ∧
    (Reachability.check
        (Reachability.check CostGuidedRerun.ce7_space CostGuidedRerun.ce7_goal
          Reachability.search_order_t.cost_guided 10).2
        CostGuidedRerun.ce7_goal
        Reachability.search_order_t.cost_guided 10).1 =
      Reachability.SearchResult.found [0, 2] ∧
    ([0, 1] : List Nat) ≠ [0, 2] := by
  refine ⟨by decide, by decide, by decide⟩

/-- C7 (amended): for depth-first and breadth-first orders a second `check`
call on the same engine instance returns the identical result, because
`previous_cost` is only mutated in the cost-guided branch of `popstate`. -/
theorem C7_rerun_deterministic {S C : Type} [DecidableEq S] [Inhabited S]
    [LinearOrder C] (space : Reachability.state_space_t S C)
    (goal_pred : S → Bool) (order : Reachability.search_order_t) (fuel : Nat)
    (ho : order ≠ Reachability.search_order_t.cost_guided) :
    Reachability.check (Reachability.check space goal_pred order fuel).2
        goal_pred order fuel =
      Reachability.check space goal_pred order fuel := by
  have h2 : (Reachability.check space goal_pred order fuel).2 = space := by
    show { space with previous_cost := (Reachability.checkLoop
      space.successors_function space.invariant space.cost_function
      space.initial_state goal_pred order fuel [space.initial_state] [] []
      space.previous_cost).2 } = space
    rw [Reachability.checkLoop_pc_const ho]
  rw [h2]

/-- Witness for C7 (amended) on a concrete breadth-first search. -/
theorem C7_rerun_deterministic_witness :
    Reachability.check
        (Reachability.check
          (Reachability.state_space_t.mk5 (0 : Nat) (0 : Int)
            (fun n => if n = 0 then [1] else [])
            Reachability.default_invariant (fun _ _ => 0))
          (fun n => n == 1) Reachability.search_order_t.breadth_first 5).2
        (fun n => n == 1) Reachability.search_order_t.breadth_first 5 =
      Reachability.check
        (Reachability.state_space_t.mk5 (0 : Nat) (0 : Int)
          (fun n => if n = 0 then [1] else [])
          Reachability.default_invariant (fun _ _ => 0))
        (fun n => n == 1) Reachability.search_order_t.breadth_first 5 :=
  C7_rerun_deterministic
    (Reachability.state_space_t.mk5 (0 : Nat) (0 : Int)
      (fun n => if n = 0 then [1] else [])
      Reachability.default_invariant (fun _ _ => 0))
    (fun n => n == 1) Reachability.search_order_t.breadth_first 5 (by decide)

namespace Reachability

variable {S C : Type} [DecidableEq S] [Inhabited S] [LinearOrder C]

theorem stepLoop_goal_initial {sf : S → List S} {inv : S → Bool}
    {cf : S → C → C} {initial : S} {goal_pred : S → Bool}
    {order : search_order_t} (pc : C)
    (hg : goal_pred initial = true) :
    stepLoop sf inv cf initial goal_pred order [initial] [] [] pc =
      .done (.found [initial]) (popstate order cf pc initial []).2.2 := by
  obtain ⟨hp1, _⟩ := popstate_singleton order cf pc initial
  simp only [stepLoop, hp1]
  rw [if_pos hg]
  have hgst : get_solution_from_trace ([] : List (S × S)) initial
      (([] : List (S × S)).length + 1) initial [] = some [initial] := by
    simp [get_solution_from_trace]
  rw [hgst]

theorem minIdx_const (z : C) :
    ∀ (l : List C), (∀ a ∈ l, a = z) → minIdx l = 0 := by
  intro l
  induction l with
  | nil => intro _; rfl
  | cons x l ih =>
    intro hall
    cases l with
    | nil => rfl
    | cons y rest =>
      rw [minIdx_cons_cons]
      have h1 : ∀ a ∈ y :: rest, a = z := fun a ha =>
        hall a (List.mem_cons_of_mem _ ha)
      have hmt := minIdx_lt_length (y :: rest) (List.cons_ne_nil _ _)
      have hg : (y :: rest).getD (minIdx (y :: rest)) y = z := by
        rw [List.getD_eq_getElem _ _ hmt]
        exact h1 _ (List.getElem_mem hmt)
      rw [hg, hall x (List.mem_cons_self _ _)]
      simp

theorem popstate_default_cost [Zero C] (pc : C) (x : S) (xs : List S) :
    (popstate .cost_guided (default_cost_function : S → C → C) pc x xs).1 = x ∧
    (popstate .cost_guided (default_cost_function : S → C → C) pc x xs).2.1
      = xs ∧
    (popstate .cost_guided (default_cost_function : S → C → C) pc x xs).2.2
      = 0 := by
  have hm : minIdx ((x :: xs).map
      (fun s => (default_cost_function : S → C → C) s pc)) = 0 := by
    apply minIdx_const (0 : C)
    intro a ha
    rw [List.mem_map] at ha
    obtain ⟨b, _, hb⟩ := ha
    rw [← hb]
    rfl
  refine ⟨?_, ?_, ?_⟩
  · show (x :: xs).getD (minIdx ((x :: xs).map
      (fun s => (default_cost_function : S → C → C) s pc))) x = x
    rw [hm]
    rfl
  · show (x :: xs).eraseIdx (minIdx ((x :: xs).map
      (fun s => (default_cost_function : S → C → C) s pc))) = xs
    rw [hm]
    rfl
  · show ((x :: xs).map
        (fun s => (default_cost_function : S → C → C) s pc)).getD
      (minIdx ((x :: xs).map
        (fun s => (default_cost_function : S → C → C) s pc)))
      ((default_cost_function : S → C → C) x pc) = 0
    rw [hm]
    rfl

theorem checkLoop_default_bfs [Zero C] {sf : S → List S} {inv : S → Bool}
    {initial : S} {goal_pred : S → Bool} (cf2 : S → C → C) :
    ∀ (fuel : Nat) (w p : List S) (t : List (S × S)) (pc1 pc2 : C),
      (checkLoop sf inv (default_cost_function : S → C → C) initial goal_pred
        .cost_guided fuel w p t pc1).1 =
      (checkLoop sf inv cf2 initial goal_pred .breadth_first fuel w p t
        pc2).1 := by
  intro fuel
  induction fuel with
  | zero => intro w p t pc1 pc2; rfl
  | succ fuel ih =>
    intro w p t pc1 pc2
    cases w with
    | nil => rfl
    | cons x xs =>
      rw [checkLoop, checkLoop]
      obtain ⟨hd1, hd2, hd3⟩ := popstate_default_cost pc1 x xs
      have hb1 : (popstate .breadth_first cf2 pc2 x xs).1 = x := rfl
      have hb2 : (popstate .breadth_first cf2 pc2 x xs).2.1 = xs := rfl
      have hb3 : (popstate .breadth_first cf2 pc2 x xs).2.2 = pc2 := rfl
      by_cases hg : goal_pred x = true
      · rcases hgst : get_solution_from_trace t initial (t.length + 1) x []
          with _ | sol
        · have hL : stepLoop sf inv (default_cost_function : S → C → C)
              initial goal_pred .cost_guided (x :: xs) p t pc1 =
              .done .outOfFuel 0 := by
            simp only [stepLoop, hd1, hd2, hd3]
            rw [if_pos hg, hgst]
          have hR : stepLoop sf inv cf2 initial goal_pred .breadth_first
              (x :: xs) p t pc2 = .done .outOfFuel pc2 := by
            simp only [stepLoop, hb1, hb2, hb3]
            rw [if_pos hg, hgst]
          rw [hL, hR]
        · have hL : stepLoop sf inv (default_cost_function : S → C → C)
              initial goal_pred .cost_guided (x :: xs) p t pc1 =
              .done (.found sol) 0 := by
            simp only [stepLoop, hd1, hd2, hd3]
            rw [if_pos hg, hgst]
          have hR : stepLoop sf inv cf2 initial goal_pred .breadth_first
              (x :: xs) p t pc2 = .done (.found sol) pc2 := by
            simp only [stepLoop, hb1, hb2, hb3]
            rw [if_pos hg, hgst]
          rw [hL, hR]
      · have hL : stepLoop sf inv (default_cost_function : S → C → C)
            initial goal_pred .cost_guided (x :: xs) p t pc1 =
            .next (pushSuccessors inv (p ++ [x]) x xs t (sf x)).1 (p ++ [x])
              (pushSuccessors inv (p ++ [x]) x xs t (sf x)).2 0 := by
          simp only [stepLoop, hd1, hd2, hd3]
          rw [if_neg hg]
        have hR : stepLoop sf inv cf2 initial goal_pred .breadth_first
            (x :: xs) p t pc2 =
            .next (pushSuccessors inv (p ++ [x]) x xs t (sf x)).1 (p ++ [x])
              (pushSuccessors inv (p ++ [x]) x xs t (sf x)).2 pc2 := by
          simp only [stepLoop, hb1, hb2, hb3]
          rw [if_neg hg]
        rw [hL, hR]
        exact ih _ _ _ 0 pc2

end Reachability

/-! ## Claim C9 -/

/-- C9: the run never depends on the invariant value at the initial
configuration (two invariants agreeing everywhere else give identical
results), the initial configuration is expanded unconditionally, and if the
goal predicate accepts the initial configuration the search returns the
singleton sequence. -/
theorem C9_initial_exempt_from_invariant {S C : Type} [DecidableEq S]
    [Inhabited S] [LinearOrder C] (space : Reachability.state_space_t S C)
    (inv2 : S → Bool) (goal_pred : S → Bool)
    (order : Reachability.search_order_t) (fuel : Nat)
    (hagree : ∀ z, z ≠ space.initial_state → space.invariant z = inv2 z) :
    ((Reachability.check space goal_pred order fuel).1 =
      (Reachability.check { space with invariant := inv2 } goal_pred order
        fuel).1 ∧
      (Reachability.check space goal_pred order fuel).2.previous_cost =
        (Reachability.check { space with invariant := inv2 } goal_pred order
          fuel).2.previous_cost) ∧
    (goal_pred space.initial_state = true → 0 < fuel →
      (Reachability.check space goal_pred order fuel).1 =
        Reachability.SearchResult.found [space.initial_state]) := by
  constructor
  · have hcl := @Reachability.checkLoop_inv_agree S C _ _ _
      space.successors_function space.invariant inv2 space.cost_function
      space.initial_state goal_pred order hagree fuel
      [space.initial_state] [] [] space.previous_cost
      (Or.inl (List.mem_singleton.mpr rfl))
    constructor
    · show (Reachability.checkLoop space.successors_function space.invariant
        space.cost_function space.initial_state goal_pred order fuel
        [space.initial_state] [] [] space.previous_cost).1 = _
      rw [hcl]
      rfl
    · show (Reachability.checkLoop space.successors_function space.invariant
        space.cost_function space.initial_state goal_pred order fuel
        [space.initial_state] [] [] space.previous_cost).2 = _
      rw [hcl]
      rfl
  · intro hg hf
    cases fuel with
    | zero => omega
    | succ f =>
      show (Reachability.checkLoop space.successors_function space.invariant
        space.cost_function space.initial_state goal_pred order (f + 1)
        [space.initial_state] [] [] space.previous_cost).1 = _
      rw [Reachability.checkLoop,
        Reachability.stepLoop_goal_initial space.previous_cost hg]

/-- Witness for C9: an invariant that rejects the initial configuration does
not change the run, and a goal holding at the initial configuration returns
the singleton trace. -/
theorem C9_initial_exempt_from_invariant_witness :
    ((Reachability.check
        (Reachability.state_space_t.mk5 (0 : Nat) (0 : Int)
          (fun n => if n = 0 then [1] else []) (fun z => !(z == 0))
          (fun _ _ => 0))
        (fun n => n == 0) Reachability.search_order_t.cost_guided 3).1 =
      (Reachability.check
        { Reachability.state_space_t.mk5 (0 : Nat) (0 : Int)
            (fun n => if n = 0 then [1] else []) (fun z => !(z == 0))
            (fun _ _ => 0) with invariant := fun _ => true }
        (fun n => n == 0) Reachability.search_order_t.cost_guided 3).1) ∧
    (Reachability.check
        (Reachability.state_space_t.mk5 (0 : Nat) (0 : Int)
          (fun n => if n = 0 then [1] else []) (fun z => !(z == 0))
          (fun _ _ => 0))
        (fun n => n == 0) Reachability.search_order_t.cost_guided 3).1 =
      Reachability.SearchResult.found [0] := by
  have h := C9_initial_exempt_from_invariant
    (Reachability.state_space_t.mk5 (0 : Nat) (0 : Int)
      (fun n => if n = 0 then [1] else []) (fun z => !(z == 0))
      (fun _ _ => 0))
    (fun _ => true) (fun n => n == 0)
    Reachability.search_order_t.cost_guided 3
    (fun z hz => by
      have hzb : (z == 0) = false := by simpa using hz
      simp [Reachability.state_space_t.mk5, hzb])
  exact ⟨h.1.1, h.2 (by decide) (by decide)⟩

/-! ## Claim C10 -/

/-- C10: with the default (constant-zero) cost function, cost-guided
`popstate` selects exactly the configuration breadth-first would select and
leaves the same remaining frontier, and a cost-guided `check` returns the
same result as a breadth-first `check`. -/
theorem C10_default_cost_is_bfs {S C : Type} [DecidableEq S] [Inhabited S]
    [LinearOrder C] [Zero C] (space : Reachability.state_space_t S C)
    (goal_pred : S → Bool) (fuel : Nat)
    (hcf : space.cost_function =
      (Reachability.default_cost_function : S → C → C)) :
    (∀ (pc : C) (x : S) (xs : List S),
      (Reachability.popstate Reachability.search_order_t.cost_guided
          space.cost_function pc x xs).1 =
        (Reachability.popstate Reachability.search_order_t.breadth_first
          space.cost_function pc x xs).1 ∧
      (Reachability.popstate Reachability.search_order_t.cost_guided
          space.cost_function pc x xs).2.1 =
        (Reachability.popstate Reachability.search_order_t.breadth_first
          space.cost_function pc x xs).2.1) ∧
    (Reachability.check space goal_pred
        Reachability.search_order_t.cost_guided fuel).1 =
      (Reachability.check space goal_pred
        Reachability.search_order_t.breadth_first fuel).1 := by
  constructor
  · intro pc x xs
    rw [hcf]
    obtain ⟨hd1, hd2, _⟩ := Reachability.popstate_default_cost pc x xs
    exact ⟨hd1, hd2⟩
  · show (Reachability.checkLoop space.successors_function space.invariant
        space.cost_function space.initial_state goal_pred
        Reachability.search_order_t.cost_guided fuel [space.initial_state]
        [] [] space.previous_cost).1 = _
    rw [hcf]
    exact Reachability.checkLoop_default_bfs space.cost_function fuel
      [space.initial_state] [] [] space.previous_cost space.previous_cost

/-- Witness for C10 on the concrete two-state engine built with the
three-argument constructor (default cost function). -/
theorem C10_default_cost_is_bfs_witness :
    ((Reachability.popstate Reachability.search_order_t.cost_guided
        (Reachability.state_space_t.mk3 (0 : Nat)
          (fun n => if n = 0 then [1] else [])
          Reachability.default_invariant :
            Reachability.state_space_t Nat Int).cost_function 7 5 [6]).1 =
      (Reachability.popstate Reachability.search_order_t.breadth_first
        (Reachability.state_space_t.mk3 (0 : Nat)
          (fun n => if n = 0 then [1] else [])
          Reachability.default_invariant :
            Reachability.state_space_t Nat Int).cost_function 7 5 [6]).1) ∧
    (Reachability.check
        (Reachability.state_space_t.mk3 (0 : Nat)
          (fun n => if n = 0 then [1] else [])
          Reachability.default_invariant : Reachability.state_space_t Nat Int)
        (fun n => n == 1) Reachability.search_order_t.cost_guided 5).1 =
      (Reachability.check
        (Reachability.state_space_t.mk3 (0 : Nat)
          (fun n => if n = 0 then [1] else [])
          Reachability.default_invariant : Reachability.state_space_t Nat Int)
        (fun n => n == 1) Reachability.search_order_t.breadth_first 5).1 := by
  have h := C10_default_cost_is_bfs
    (Reachability.state_space_t.mk3 (0 : Nat)
      (fun n => if n = 0 then [1] else [])
      Reachability.default_invariant : Reachability.state_space_t Nat Int)
    (fun n => n == 1) 5 rfl
  exact ⟨(h.1 7 5 [6]).1, h.2⟩

/-! ## Claim C8 -/

/-- C8: on the leaping-frogs model with 2 frogs per side, breadth-first and
depth-first search both return 9-configuration sequences beginning at
`GG_BB` and ending at `BB_GG`. -/
theorem C8_frogs_two_per_side :
    ∃ solB solD,
      (Reachability.check (Frogs.frogSpace 2) (Frogs.frogGoal 2)
        Reachability.search_order_t.breadth_first 100).1 =
        Reachability.SearchResult.found solB ∧
      (Reachability.check (Frogs.frogSpace 2) (Frogs.frogGoal 2)
        Reachability.search_order_t.depth_first 100).1 =
        Reachability.SearchResult.found solD ∧
      solB.length = 9 ∧ solD.length = 9 ∧
      solB.head? = some (Frogs.frogStart 2) ∧
      solD.head? = some (Frogs.frogStart 2) ∧
      solB.getLast? = some (Frogs.frogFinish 2) ∧
      solD.getLast? = some (Frogs.frogFinish 2) := by
  refine ⟨_, _, rfl, rfl, ?_, ?_, ?_, ?_, ?_, ?_⟩ <;> decide

namespace Reachability

variable {S C : Type} [DecidableEq S] [Inhabited S] [LinearOrder C]

theorem reach_zero {sf : S → List S} {inv : S → Bool} {initial s : S}
    (h : Reach sf inv initial 0 s) : s = initial := by
  cases h
  rfl

theorem belem_mono {t : List (S × S)} {initial : S} {p p2 : List S}
    (hsub : ∀ z ∈ p, z ∈ p2) {s : S} {n : Nat}
    (h : BElem t initial p s n) : BElem t initial p2 s n := by
  obtain ⟨pth, h1, h2, h3⟩ := h
  exact ⟨pth, h1, h2, fun x hx => (h3 x hx).imp (hsub x) id⟩

theorem binv_shift {sf : S → List S} {inv : S → Bool} {goal_pred : S → Bool}
    {initial : S} {d : Nat} {B p : List S} {t : List (S × S)}
    (h : BInvAt sf inv goal_pred initial d [] B p t) :
    BInvAt sf inv goal_pred initial (d + 1) B [] p t := by
  obtain ⟨_, hB, hP, hcov, hclose, hinit⟩ := h
  refine ⟨?_, ?_, hP, ?_, ?_, ?_⟩
  · intro s hs
    exact ⟨(hB s hs).1, (hB s hs).2.1, (hB s hs).2.2⟩
  · intro s hs
    simp at hs
  · intro e s he hr
    rcases Nat.lt_or_ge e (d + 1) with hlt | hge
    · have hc := hcov e s (by omega) hr
      rw [List.nil_append] at hc
      rw [List.append_nil]
      exact hc
    · have he1 : e = d + 1 := by omega
      subst he1
      cases hr with
      | tail hq hsf hinvs =>
        rcases hcov d _ (by omega) hq with hqp | hqB
        · have hc := hclose _ hqp _ hsf hinvs
          rw [List.nil_append] at hc
          rw [List.append_nil]
          exact hc
        · rw [List.nil_append] at hqB
          have := (hB _ hqB).2.1 _ hq
          omega
  · intro q hq s hs hinvs
    have hc := hclose q hq s hs hinvs
    rw [List.nil_append] at hc
    rw [List.append_nil]
    exact hc
  · rw [List.append_nil]
    rcases hinit with h1 | h1
    · rw [List.nil_append] at h1
      exact Or.inl h1
    · exact Or.inr h1

theorem push_belem {sf : S → List S} {inv : S → Bool} {initial : S}
    {passed : List S} {curr : S} {d : Nat} {w0 : List S}
    (hcR : Reach sf inv initial d curr)
    (hfresh : ∀ z, z ∉ w0 → z ∉ passed → ∀ e, e ≤ d →
      ¬Reach sf inv initial e z) :
    ∀ (succs : List S), (∀ z ∈ succs, z ∈ sf curr) →
    ∀ (w : List S) (t : List (S × S)),
      (∀ z ∈ w0, z ∈ w) →
      (initial ∈ w ∨ initial ∈ passed) →
      (∃ pthc, get_solution_from_trace t initial (t.length + 1) curr []
          = some pthc ∧ pthc.length = d + 1 ∧ ∀ x ∈ pthc, x ∈ passed) →
      ∃ added,
        (pushSuccessors inv passed curr w t succs).1 = w ++ added ∧
        (∀ z ∈ w, ∀ n, BElem t initial passed z n →
          BElem (pushSuccessors inv passed curr w t succs).2 initial passed
            z n) ∧
        (∀ z ∈ added, Reach sf inv initial (d + 1) z ∧
          (∀ n, Reach sf inv initial n z → d + 1 ≤ n) ∧
          BElem (pushSuccessors inv passed curr w t succs).2 initial passed
            z (d + 2)) := by
  intro succs
  induction succs with
  | nil =>
    intro _ w t _ _ _
    rw [pushSuccessors]
    exact ⟨[], by simp, fun z _ n h => h, by simp⟩
  | cons s rest ihp =>
    intro hsub w t hw0 hinit hcurr
    rw [pushSuccessors]
    split
    · rename_i hc
      obtain ⟨pthc, hgstc, hlenc, hmemc⟩ := hcurr
      have hsp : s ∉ passed := hc.2.2
      have hsw : s ∉ w := hc.2.1
      have hsne : s ≠ initial := by
        rintro rfl
        rcases hinit with h | h
        · exact hsw h
        · exact hsp h
      have hspthc : s ∉ pthc := fun hm => hsp (hmemc s hm)
      have hgstc1 : get_solution_from_trace ((s, curr) :: t) initial
          (t.length + 1) curr [] = some pthc := gst_extend hgstc hspthc
      have hsge : get_solution_from_trace ((s, curr) :: t) initial
          (((s, curr) :: t).length + 1) s [] = some (pthc ++ [s]) := by
        show get_solution_from_trace ((s, curr) :: t) initial
          (t.length + 1 + 1) s [] = _
        rw [get_solution_from_trace, if_neg hsne]
        have hlk : lookupTrace ((s, curr) :: t) s = some curr := by
          simp [lookupTrace]
        rw [hlk, Option.getD_some, gst_acc, hgstc1]
        rfl
      have hcurr1 : ∃ pthc1, get_solution_from_trace ((s, curr) :: t) initial
          (((s, curr) :: t).length + 1) curr [] = some pthc1 ∧
          pthc1.length = d + 1 ∧ ∀ x ∈ pthc1, x ∈ passed := by
        refine ⟨pthc, ?_, hlenc, hmemc⟩
        simpa [List.length_cons] using gst_mono hgstc1
      obtain ⟨added, hw2, himpl, hadded⟩ := ihp
        (fun z hz => hsub z (List.mem_cons_of_mem _ hz)) (w ++ [s])
        ((s, curr) :: t)
        (fun z hz => List.mem_append.mpr (Or.inl (hw0 z hz)))
        (hinit.imp (fun h => List.mem_append.mpr (Or.inl h)) id) hcurr1
      refine ⟨s :: added, ?_, ?_, ?_⟩
      · rw [hw2, List.append_assoc]
        rfl
      · intro z hz n hbe
        have hbe1 : BElem ((s, curr) :: t) initial passed z n := by
          obtain ⟨pz, hgz, hlz, hmz⟩ := hbe
          have hspz : s ∉ pz := by
            intro hm
            rcases hmz s hm with h1 | h1
            · exact hsp h1
            · refine hsw ?_
              rw [h1]
              exact hz
          refine ⟨pz, ?_, hlz, hmz⟩
          simpa [List.length_cons] using gst_mono (gst_extend hgz hspz)
        exact himpl z (List.mem_append.mpr (Or.inl hz)) n hbe1
      · intro z hz
        rcases List.mem_cons.mp hz with hzs | hza
        · subst hzs
          refine ⟨Reach.tail hcR (hsub z (List.mem_cons_self _ _)) hc.1,
            ?_, ?_⟩
          · intro n hn
            by_contra hcon
            push_neg at hcon
            exact hfresh z (fun hm => hsw (hw0 z hm)) hsp n (by omega) hn
          · have hbe1 : BElem ((z, curr) :: t) initial passed z (d + 2) := by
              refine ⟨pthc ++ [z], hsge, by simp [hlenc], fun x hx => ?_⟩
              rcases List.mem_append.mp hx with h1 | h1
              · exact Or.inl (hmemc x h1)
              · exact Or.inr (List.mem_singleton.mp h1)
            exact himpl z
              (List.mem_append.mpr (Or.inr (List.mem_singleton.mpr rfl))) _
              hbe1
        · exact hadded z hza
    · exact ihp (fun z hz => hsub z (List.mem_cons_of_mem _ hz)) w t hw0
        hinit hcurr

end Reachability

namespace Reachability

variable {S C : Type} [DecidableEq S] [Inhabited S] [LinearOrder C]

theorem bfs_pop_step {sf : S → List S} {inv : S → Bool} {cf : S → C → C}
    {initial : S} {goal_pred : S → Bool} {fuel : Nat}
    (ih : ∀ (d : Nat) (A B p : List S) (t : List (S × S)) (pc : C)
      {sol : List S} {pc2 : C},
      BInvAt sf inv goal_pred initial d A B p t →
      checkLoop sf inv cf initial goal_pred .breadth_first fuel (A ++ B) p t
        pc = (.found sol, pc2) →
      ∀ (e : Nat) (g : S), Reach sf inv initial e g → goal_pred g = true →
        sol.length ≤ e + 1)
    (d : Nat) (a : S) (A2 B p : List S) (t : List (S × S)) (pc : C)
    {sol : List S} {pc2 : C}
    (hInv : BInvAt sf inv goal_pred initial d (a :: A2) B p t)
    (hrun : checkLoop sf inv cf initial goal_pred .breadth_first (fuel + 1)
      ((a :: A2) ++ B) p t pc = (.found sol, pc2)) :
    ∀ (e : Nat) (g : S), Reach sf inv initial e g → goal_pred g = true →
      sol.length ≤ e + 1 := by
  obtain ⟨hA, hB, hP, hcov, hclose, hinit⟩ := hInv
  obtain ⟨hRa, hMina, hBEa⟩ := hA a (List.mem_cons_self _ _)
  obtain ⟨pth, hgst, hlenp, hmemp⟩ := hBEa
  rw [List.cons_append, checkLoop] at hrun
  have hb1 : (popstate .breadth_first cf pc a (A2 ++ B)).1 = a := rfl
  have hb2 : (popstate .breadth_first cf pc a (A2 ++ B)).2.1 = A2 ++ B := rfl
  have hb3 : (popstate .breadth_first cf pc a (A2 ++ B)).2.2 = pc := rfl
  by_cases hg : goal_pred a = true
  · have hstep : stepLoop sf inv cf initial goal_pred .breadth_first
        (a :: (A2 ++ B)) p t pc = .done (.found pth) pc := by
      simp only [stepLoop, hb1, hb2, hb3]
      rw [if_pos hg, hgst]
    rw [hstep] at hrun
    simp only [Prod.mk.injEq, SearchResult.found.injEq] at hrun
    obtain ⟨hsol, _⟩ := hrun
    subst hsol
    intro e g hre hge
    rw [hlenp]
    by_contra hcon
    push_neg at hcon
    have hed : e ≤ d := by omega
    rcases hcov e g hed hre with hgp | hgw
    · rw [hP g hgp] at hge
      exact Bool.noConfusion hge
    · rcases List.mem_append.mp hgw with hgA | hgB
      · have := (hA g hgA).2.1 e hre
        omega
      · have := (hB g hgB).2.1 e hre
        omega
  · have hstep : stepLoop sf inv cf initial goal_pred .breadth_first
        (a :: (A2 ++ B)) p t pc =
        .next (pushSuccessors inv (p ++ [a]) a (A2 ++ B) t (sf a)).1
          (p ++ [a]) (pushSuccessors inv (p ++ [a]) a (A2 ++ B) t (sf a)).2
          pc := by
      simp only [stepLoop, hb1, hb2, hb3]
      rw [if_neg hg]
    rw [hstep] at hrun
    have hfresh : ∀ z, z ∉ A2 ++ B → z ∉ p ++ [a] → ∀ e, e ≤ d →
        ¬Reach sf inv initial e z := by
      intro z hzw hzp e he hr
      rcases hcov e z he hr with h1 | h1
      · exact hzp (List.mem_append.mpr (Or.inl h1))
      · rw [List.cons_append] at h1
        rcases List.mem_cons.mp h1 with h2 | h2
        · exact hzp (List.mem_append.mpr (Or.inr (List.mem_singleton.mpr h2)))
        · exact hzw h2
    have hinitw : initial ∈ A2 ++ B ∨ initial ∈ p ++ [a] := by
      rcases hinit with h1 | h1
      · rw [List.cons_append] at h1
        rcases List.mem_cons.mp h1 with h2 | h2
        · exact Or.inr (List.mem_append.mpr (Or.inr
            (List.mem_singleton.mpr h2)))
        · exact Or.inl h2
      · exact Or.inr (List.mem_append.mpr (Or.inl h1))
    have hcurrBE : ∃ pthc, get_solution_from_trace t initial (t.length + 1)
        a [] = some pthc ∧ pthc.length = d + 1 ∧
        ∀ x ∈ pthc, x ∈ p ++ [a] := by
      refine ⟨pth, hgst, hlenp, fun x hx => ?_⟩
      rcases hmemp x hx with h1 | h1
      · exact List.mem_append.mpr (Or.inl h1)
      · exact List.mem_append.mpr (Or.inr (List.mem_singleton.mpr h1))
    obtain ⟨added, hw2, himpl, hadded⟩ := push_belem hRa hfresh (sf a)
      (fun z hz => hz) (A2 ++ B) t (fun z hz => hz) hinitw hcurrBE
    have hpmono : ∀ z ∈ p, z ∈ p ++ [a] :=
      fun z hz => List.mem_append.mpr (Or.inl hz)
    have hBInv2 : BInvAt sf inv goal_pred initial d A2 (B ++ added)
        (p ++ [a]) (pushSuccessors inv (p ++ [a]) a (A2 ++ B) t (sf a)).2 := by
      refine ⟨?_, ?_, ?_, ?_, ?_, ?_⟩
      · intro s hs
        have hsw : s ∈ A2 ++ B := List.mem_append.mpr (Or.inl hs)
        obtain ⟨hr1, hr2, hr3⟩ := hA s (List.mem_cons_of_mem _ hs)
        exact ⟨hr1, hr2, himpl s hsw _ (belem_mono hpmono hr3)⟩
      · intro s hs
        rcases List.mem_append.mp hs with hsB | hsadd
        · have hsw : s ∈ A2 ++ B := List.mem_append.mpr (Or.inr hsB)
          obtain ⟨hr1, hr2, hr3⟩ := hB s hsB
          exact ⟨hr1, hr2, himpl s hsw _ (belem_mono hpmono hr3)⟩
        · exact hadded s hsadd
      · intro s hs
        rcases List.mem_append.mp hs with hsp | hsa
        · exact hP s hsp
        · rw [List.mem_singleton.mp hsa]
          exact Bool.not_eq_true _ ▸ (by simpa using hg)
      · intro e s he hr
        rcases hcov e s he hr with h1 | h1
        · exact Or.inl (List.mem_append.mpr (Or.inl h1))
        · rw [List.cons_append] at h1
          rcases List.mem_cons.mp h1 with h2 | h2
          · exact Or.inl (List.mem_append.mpr (Or.inr
              (List.mem_singleton.mpr h2)))
          · rcases List.mem_append.mp h2 with h3 | h3
            · exact Or.inr (List.mem_append.mpr (Or.inl h3))
            · exact Or.inr (List.mem_append.mpr (Or.inr
                (List.mem_append.mpr (Or.inl h3))))
      · intro q hq s hs hinvs
        rcases List.mem_append.mp hq with hqp | hqa
        · rcases hclose q hqp s hs hinvs with h1 | h1
          · exact Or.inl (List.mem_append.mpr (Or.inl h1))
          · rw [List.cons_append] at h1
            rcases List.mem_cons.mp h1 with h2 | h2
            · exact Or.inl (List.mem_append.mpr (Or.inr
                (List.mem_singleton.mpr h2)))
            · rcases List.mem_append.mp h2 with h3 | h3
              · exact Or.inr (List.mem_append.mpr (Or.inl h3))
              · exact Or.inr (List.mem_append.mpr (Or.inr
                  (List.mem_append.mpr (Or.inl h3))))
        · have hq2 : q = a := List.mem_singleton.mp hqa
          rw [hq2] at hs
          rcases push_covers inv (p ++ [a]) a (sf a) (A2 ++ B) t s hs hinvs
            with h1 | h1
          · rw [hw2] at h1
            rcases List.mem_append.mp h1 with h3 | h3
            · rcases List.mem_append.mp h3 with h4 | h4
              · exact Or.inr (List.mem_append.mpr (Or.inl h4))
              · exact Or.inr (List.mem_append.mpr (Or.inr
                  (List.mem_append.mpr (Or.inl h4))))
            · exact Or.inr (List.mem_append.mpr (Or.inr
                (List.mem_append.mpr (Or.inr h3))))
          · exact Or.inl h1
      · rcases hinitw with h1 | h1
        · rcases List.mem_append.mp h1 with h2 | h2
          · exact Or.inl (List.mem_append.mpr (Or.inl h2))
          · exact Or.inl (List.mem_append.mpr (Or.inr
              (List.mem_append.mpr (Or.inl h2))))
        · exact Or.inr h1
    have hrun2 : checkLoop sf inv cf initial goal_pred .breadth_first fuel
        (A2 ++ (B ++ added)) (p ++ [a])
        (pushSuccessors inv (p ++ [a]) a (A2 ++ B) t (sf a)).2 pc =
        (.found sol, pc2) := by
      rw [← List.append_assoc, ← hw2]
      exact hrun
    exact ih d A2 (B ++ added) (p ++ [a]) _ pc hBInv2 hrun2

theorem checkLoop_bfs_minimal {sf : S → List S} {inv : S → Bool}
    {cf : S → C → C} {initial : S} {goal_pred : S → Bool} :
    ∀ (fuel : Nat) (d : Nat) (A B p : List S) (t : List (S × S)) (pc : C)
      {sol : List S} {pc2 : C},
      BInvAt sf inv goal_pred initial d A B p t →
      checkLoop sf inv cf initial goal_pred .breadth_first fuel (A ++ B) p t
        pc = (.found sol, pc2) →
      ∀ (e : Nat) (g : S), Reach sf inv initial e g → goal_pred g = true →
        sol.length ≤ e + 1 := by
  intro fuel
  induction fuel with
  | zero =>
    intro d A B p t pc sol pc2 _ h
    simp [checkLoop] at h
  | succ fuel ihf =>
    intro d A B p t pc sol pc2 hInv hrun
    rcases A with _ | ⟨a, A2⟩
    · rcases B with _ | ⟨b, B2⟩
      · rw [checkLoop] at hrun
        simp [stepLoop] at hrun
      · have hInv2 := binv_shift hInv
        have hrun2 : checkLoop sf inv cf initial goal_pred .breadth_first
            (fuel + 1) ((b :: B2) ++ []) p t pc = (.found sol, pc2) := by
          rw [List.append_nil]
          exact hrun
        exact bfs_pop_step (fun d A B p t pc {sol pc2} => ihf d A B p t pc)
          (d + 1) b B2 [] p t pc hInv2 hrun2
    · exact bfs_pop_step (fun d A B p t pc {sol pc2} => ihf d A B p t pc)
        d a A2 B p t pc hInv hrun

end Reachability

/-! ## Claim C2 -/

/-- C2: a breadth-first solution sequence has minimal length (hence a minimal
number of transitions) among all sequences from the initial configuration to
a goal-satisfying configuration whose steps are generator transitions
accepted by the invariant. -/
theorem C2_bfs_shortest {S C : Type} [DecidableEq S] [Inhabited S]
    [LinearOrder C] (space : Reachability.state_space_t S C)
    (goal_pred : S → Bool) (fuel : Nat) (sol ch : List S)
    (h : (Reachability.check space goal_pred
      Reachability.search_order_t.breadth_first fuel).1 =
      Reachability.SearchResult.found sol)
    (hch : Reachability.validChain space.successors_function space.invariant
      ch = true)
    (hh : ch.head? = some space.initial_state)
    (hgoal : ∃ g, ch.getLast? = some g ∧ goal_pred g = true) :
    sol.length ≤ ch.length := by
  obtain ⟨g, hgl, hgt⟩ := hgoal
  have hr : Reachability.Reach space.successors_function space.invariant
      space.initial_state (ch.length - 1) g :=
    Reachability.chain_reach ch hch hh hgl
  have hinv0 : Reachability.BInvAt space.successors_function space.invariant
      goal_pred space.initial_state 0 [space.initial_state] [] [] [] := by
    refine ⟨?_, ?_, ?_, ?_, ?_, ?_⟩
    · intro s hs
      rw [List.mem_singleton] at hs
      subst hs
      refine ⟨Reachability.Reach.refl, fun n _ => Nat.zero_le n, ?_⟩
      refine ⟨[space.initial_state], ?_, rfl, ?_⟩
      · simp [Reachability.get_solution_from_trace]
      · intro x hx
        exact Or.inr (List.mem_singleton.mp hx)
    · intro s hs
      simp at hs
    · intro s hs
      simp at hs
    · intro e s he hr2
      have he0 : e = 0 := by omega
      subst he0
      have := Reachability.reach_zero hr2
      subst this
      exact Or.inr (List.mem_append.mpr (Or.inl (List.mem_singleton.mpr rfl)))
    · intro q hq
      simp at hq
    · exact Or.inl (List.mem_append.mpr (Or.inl (List.mem_singleton.mpr rfl)))
  have hpair : Reachability.checkLoop space.successors_function
      space.invariant space.cost_function space.initial_state goal_pred
      Reachability.search_order_t.breadth_first fuel
      ([space.initial_state] ++ []) [] [] space.previous_cost =
      (Reachability.SearchResult.found sol,
        (Reachability.checkLoop space.successors_function space.invariant
          space.cost_function space.initial_state goal_pred
          Reachability.search_order_t.breadth_first fuel
          [space.initial_state] [] [] space.previous_cost).2) := by
    rw [List.append_nil]
    exact Prod.ext h rfl
  have hmain := Reachability.checkLoop_bfs_minimal fuel 0
    [space.initial_state] [] [] [] space.previous_cost hinv0 hpair
    (ch.length - 1) g hr hgt
  have hch_ne : ch ≠ [] := by
    intro he
    rw [he] at hh
    simp at hh
  have hlen : ch.length - 1 + 1 = ch.length :=
    Nat.succ_pred_eq_of_pos (List.length_pos.mpr hch_ne)
  omega

/-- Witness for C2 on a diamond graph: the breadth-first solution `[0, 1, 3]`
is no longer than the alternative chain `[0, 2, 3]`. -/
theorem C2_bfs_shortest_witness :
    ((Reachability.check
        (Reachability.state_space_t.mk5 (0 : Nat) (0 : Int)
          (fun n => if n = 0 then [1, 2] else if n ≤ 2 then [3] else [])
          Reachability.default_invariant (fun _ _ => 0))
        (fun n => n == 3) Reachability.search_order_t.breadth_first 10).1 =
      Reachability.SearchResult.found [0, 1, 3]) ∧
    ([0, 1, 3] : List Nat).length ≤ ([0, 2, 3] : List Nat).length :=
  ⟨by decide,
    C2_bfs_shortest
      (Reachability.state_space_t.mk5 (0 : Nat) (0 : Int)
        (fun n => if n = 0 then [1, 2] else if n ≤ 2 then [3] else [])
        Reachability.default_invariant (fun _ _ => 0))
      (fun n => n == 3) 10 [0, 1, 3] [0, 2, 3] (by decide) (by decide)
      (by decide) ⟨3, by decide, by decide⟩⟩
